import Mathlib

/-!
Verification of the identity-resolution core of the MS-DB-REQ repository.

The Python sources embedded here:
  * `backend/open_webui/notion_workspace_manager.py` — index building
    (`_build_name_mapping`), exact+fuzzy matching (`find_user_by_name`),
    suggestion ranking (`get_name_suggestions`), id extraction
    (`get_user_id_by_name`);
  * `backend/open_webui/routers/notion_workspace_api.py` — the
    `match_user_name` endpoint body (the part after a successful/failed
    `find_user_by_name` call);
  * `fetch_notion_users_paginated.py` — `fetch_users_in_batches` and
    `verify_extraction`.

Modelling conventions:
  * Python strings are Lean `String`s; names are assumed to be ASCII, so
    `str.lower`/`str.strip`/`str.split` are modelled character-wise with the
    ASCII whitespace set used by CPython.
  * Python floats are modelled as exact rationals (`ℚ`); every score in the
    source is a small dyadic/decimal constant or a `ratio` value `2*m/(la+lb)`.
  * `difflib.SequenceMatcher(None, a, b).ratio()` (the only stdlib algorithm
    the core depends on) is modelled faithfully below, including the autojunk
    filtering of popular elements for `len(b) >= 200` and the two junk-free
    extension loops of `find_longest_match`.  With `isjunk = None` the junk
    set `bjunk` is empty, so the two junk-extension loops of CPython never
    fire and are omitted.
  * Python dicts used as the name index are modelled as association lists
    where an insert prepends and a lookup takes the first hit, which realises
    the dict's overwrite-on-collision semantics.
-/

/-! ### Python string primitives -/

/-- The ASCII whitespace characters recognised by `str.strip()` / `str.split()`. -/
def pyIsSpace (c : Char) : Bool :=
  c == ' ' || c == '\t' || c == '\n' || c == '\x0d' ||
  c == Char.ofNat 11 || c == Char.ofNat 12

/-- ASCII `str.lower` on a single character. -/
def pyLowerChar (c : Char) : Char :=
  if 65 ≤ c.toNat ∧ c.toNat ≤ 90 then Char.ofNat (c.toNat + 32) else c

/-- ASCII `str.lower`. -/
def pyLower (s : String) : String := String.mk (s.data.map pyLowerChar)

/-- `str.strip()` with no argument: drop leading and trailing whitespace. -/
def pyStrip (s : String) : String :=
  String.mk (((s.data.dropWhile pyIsSpace).reverse.dropWhile pyIsSpace).reverse)

/-- Helper for `pySplit`: accumulate the current token (reversed). -/
def pySplitAux : List Char → List Char → List String
  | [], acc => if acc = [] then [] else [String.mk acc.reverse]
  | c :: cs, acc =>
    if pyIsSpace c then
      if acc = [] then pySplitAux cs []
      else String.mk acc.reverse :: pySplitAux cs []
    else pySplitAux cs (c :: acc)

/-- `str.split()` with no argument: split on whitespace runs, no empty tokens. -/
def pySplit (s : String) : List String := pySplitAux s.data []

/-- Python `y.startswith(x)` for strings: `pyStartsWith y x`. -/
def pyStartsWith (s pre : String) : Bool :=
  s.data.take pre.data.length == pre.data

/-- Python `x in y` substring containment: `substr x y`. -/
def substr (needle hay : String) : Bool :=
  (List.range (hay.data.length + 1)).any
    (fun i => (hay.data.drop i).take needle.data.length == needle.data)

/-- `max(scores)` over a list of rationals (`0` for an empty list, matching
the `if scores else 0.0` fallback in the source). -/
def listMax : List ℚ → ℚ
  | [] => 0
  | x :: xs => xs.foldl max x

/-! ### `difflib.SequenceMatcher(None, a, b)` model

Faithful to CPython's `difflib.py`: `b2j` lists the positions of each element
of `b` in increasing order; with `autojunk = True` (the default) and
`len(b) >= 200`, elements occurring more than `len(b) // 100 + 1` times are
"popular" and removed from `b2j`.  `bjunk` is empty because the matcher is
always constructed with `isjunk = None` in this repository. -/

/-- Number of occurrences of `c` in `b`. -/
def countChar (b : List Char) (c : Char) : Nat :=
  (b.filter (fun x => x == c)).length

/-- `b2j[c]`: the increasing list of positions of `c` in `b`, with the
autojunk popularity filter. -/
def posList (b : List Char) (c : Char) : List Nat :=
  if 200 ≤ b.length ∧ b.length / 100 + 1 < countChar b c then []
  else (List.range b.length).filter (fun j => b.getD j ' ' == c)

/-- The inner-loop body of `find_longest_match`'s dynamic programme for one
`j` of `b2j[a[i]]`: skip outside `[blo, bhi)`; `k = j2len.get(j-1, 0) + 1`
(Python's `j-1` is `-1`, never a key, when `j = 0`); record `k` in the new
row map and update the strictly-best block.  `oldm` is the previous row's
`j2len`; `acc` carries the new row map and the best triple. -/
def flmStep (oldm : Nat → Nat) (i blo bhi : Nat)
    (acc : (Nat → Nat) × (Nat × Nat × Nat)) (j : Nat) :
    (Nat → Nat) × (Nat × Nat × Nat) :=
  if blo ≤ j ∧ j < bhi then
    ((fun j' => if j' = j then (if j = 0 then 0 else oldm (j - 1)) + 1
                else acc.1 j'),
      if acc.2.2.2 < (if j = 0 then 0 else oldm (j - 1)) + 1 then
        (i + 1 - ((if j = 0 then 0 else oldm (j - 1)) + 1),
         j + 1 - ((if j = 0 then 0 else oldm (j - 1)) + 1),
         (if j = 0 then 0 else oldm (j - 1)) + 1)
      else acc.2)
  else acc

/-- One row (`for i in range(alo, ahi)`) of the `find_longest_match` dynamic
programme.  The state is `(j2len, (besti, bestj, bestsize))`; `st.1` is the
previous row's `j2len`, the new row starts from the zero map. -/
def flmRow (a b : List Char) (blo bhi : Nat)
    (st : (Nat → Nat) × (Nat × Nat × Nat)) (i : Nat) :
    (Nat → Nat) × (Nat × Nat × Nat) :=
  (posList b (a.getD i ' ')).foldl (flmStep st.1 i blo bhi) ((fun _ => 0), st.2)

/-- The dynamic-programming phase of `find_longest_match` over
rows `alo, …, ahi-1`, returning `(besti, bestj, bestsize)`. -/
def flmDP (a b : List Char) (alo ahi blo bhi : Nat) : Nat × Nat × Nat :=
  ((List.range' alo (ahi - alo)).foldl (flmRow a b blo bhi)
    ((fun _ => 0), (alo, blo, 0))).2

/-- `a[i] == b[j]`, false when either index is out of range (never the case
on the paths the source exercises). -/
def matchAt (a b : List Char) (i j : Nat) : Bool :=
  match a.get? i, b.get? j with
  | some x, some y => x == y
  | _, _ => false

/-- The junk-free left extension loop of `find_longest_match`.  The fuel
argument is `besti - alo`, which is exactly the maximal iteration count, so
the fuelled recursion is the loop. -/
def extendLeftF (a b : List Char) (alo blo : Nat) :
    Nat → Nat → Nat → Nat → Nat × Nat × Nat
  | 0, bi, bj, bs => (bi, bj, bs)
  | fuel + 1, bi, bj, bs =>
    if alo < bi ∧ blo < bj ∧ matchAt a b (bi - 1) (bj - 1) then
      extendLeftF a b alo blo fuel (bi - 1) (bj - 1) (bs + 1)
    else (bi, bj, bs)

/-- The junk-free right extension loop; the fuel is `ahi - (bi + bs)`. -/
def extendRightF (a b : List Char) (ahi bhi : Nat) :
    Nat → Nat → Nat → Nat → Nat
  | 0, _, _, bs => bs
  | fuel + 1, bi, bj, bs =>
    if bi + bs < ahi ∧ bj + bs < bhi ∧ matchAt a b (bi + bs) (bj + bs) then
      extendRightF a b ahi bhi fuel bi bj (bs + 1)
    else bs

/-- `SequenceMatcher.find_longest_match(alo, ahi, blo, bhi)` (with empty
junk set). -/
def findLongestMatch (a b : List Char) (alo ahi blo bhi : Nat) :
    Nat × Nat × Nat :=
  let t0 := flmDP a b alo ahi blo bhi
  let t1 := extendLeftF a b alo blo (t0.1 - alo) t0.1 t0.2.1 t0.2.2
  (t1.1, t1.2.1, extendRightF a b ahi bhi (ahi - (t1.1 + t1.2.2)) t1.1 t1.2.1 t1.2.2)

/-- Total size of the matching blocks of `get_matching_blocks` restricted to
the rectangle `[alo, ahi) × [blo, bhi)` (the queue recursion of CPython,
which splits around the longest match; block merging and the trailing zero
block do not change the total).  Fuelled structurally; a fuel of
`ahi - alo + 1` strictly dominates the recursion depth, so the caller below
never hits the `0` case. -/
def matchesInF (a b : List Char) : Nat → Nat → Nat → Nat → Nat → Nat
  | 0, _, _, _, _ => 0
  | fuel + 1, alo, ahi, blo, bhi =>
    match findLongestMatch a b alo ahi blo bhi with
    | (i, j, k) =>
      if 0 < k then
        (if alo < i ∧ blo < j then matchesInF a b fuel alo i blo j else 0)
        + k +
        (if i + k < ahi ∧ j + k < bhi then
          matchesInF a b fuel (i + k) ahi (j + k) bhi else 0)
      else 0

/-- `sum(size for (_, _, size) in get_matching_blocks())`. -/
def smMatches (a b : List Char) : Nat :=
  matchesInF a b (a.length + 1) 0 a.length 0 b.length

/-- `SequenceMatcher(None, sa, sb).ratio()`: `2*M/T` with `T = la + lb`,
and `1.0` for two empty strings (`_calculate_ratio`). -/
def pyRatio (sa sb : String) : ℚ :=
  if sa.data.length + sb.data.length = 0 then 1
  else (2 * (smMatches sa.data sb.data) : ℚ) /
    ((sa.data.length : ℚ) + (sb.data.length : ℚ))

/-! ### Directory members and the multi-key name index
(`notion_workspace_manager.py`) -/

/-- A workspace member as consumed by the resolver.  The `email`/`type`
fields of the source dicts never influence control flow and are omitted. -/
structure User where
  id : String
  name : String
deriving DecidableEq, Repr

/-- The `user_name_mapping` dict: an association list where the most recent
insertion is first, so lookup-first realises overwrite-on-collision. -/
abbrev NameMapping := List (String × String)

/-- `self.user_name_mapping[key] = value` (a dict assignment). -/
def insertKey (m : NameMapping) (k v : String) : NameMapping := (k, v) :: m

/-- `self.user_name_mapping.get(key)`: first (i.e. most recent) binding. -/
def lookupKey (m : NameMapping) (k : String) : Option String :=
  (m.find? (fun p => p.1 == k)).map (·.2)

/-- `"".join([p[0].lower() for p in parts if p])`. -/
def initialsOf (parts : List String) : String :=
  String.join ((parts.filter (fun p => p ≠ "")).map
    (fun p => match p.data with
      | [] => ""
      | c :: _ => String.singleton (pyLowerChar c)))

/-- The sequence of keys `_build_name_mapping` assigns for one member, in
assignment order (lines 105-124 of `notion_workspace_manager.py`):
full lower-cased name; first token; last token (≥2 tokens); interior
tokens; `"<first> <last>"` and initials (≥2 tokens).  All of them are
assigned the member's id.  An empty stripped name registers nothing. -/
def userKeys (user : User) : List String :=
  let name := pyStrip user.name
  if name = "" then []
  else
    let parts := pySplit name
    [pyLower name] ++
      match parts with
      | [] => []
      | p :: rest =>
        [pyLower p]
        ++ (if rest ≠ [] then [pyLower (parts.getLastD "")] else [])
        ++ ((parts.drop 1).dropLast.filter (fun part => part ≠ "")).map pyLower
        ++ (if 2 ≤ parts.length then
              [pyLower p ++ " " ++ pyLower (parts.getLastD ""),
               initialsOf parts]
            else [])

/-- Process one member of `_build_name_mapping`'s loop: perform its key
assignments in order. -/
def buildStep (m : NameMapping) (user : User) : NameMapping :=
  ((userKeys user).map (fun k => (k, user.id))).foldl
    (fun mm p => insertKey mm p.1 p.2) m

/-- `_build_name_mapping` from an empty dict over the directory in order. -/
def build_name_mapping (workspace_users : List User) : NameMapping :=
  workspace_users.foldl buildStep []

/-! ### Fuzzy matcher (`find_user_by_name`) -/

/-- The candidate score list of `find_user_by_name` (lines 160-184) for a
stripped non-empty member name: whole-string ratio; containment bonus 0.8;
first-token 0.95; last-token 0.9; interior tokens 0.85; initials 0.9. -/
def fuzzyScores (search_lower : String) (user_name : String) : List ℚ :=
  let unl := pyLower user_name
  let parts := pySplit user_name
  [pyRatio search_lower unl]
  ++ (if substr search_lower unl || substr unl search_lower
      then [(8 : ℚ)/10] else [])
  ++ (if parts ≠ [] ∧ search_lower = pyLower (parts.headD "")
      then [(95 : ℚ)/100] else [])
  ++ (if 1 < parts.length ∧ search_lower = pyLower (parts.getLastD "")
      then [(9 : ℚ)/10] else [])
  ++ ((parts.drop 1).dropLast.filterMap
      (fun part => if search_lower = pyLower part then some ((85 : ℚ)/100) else none))
  ++ (if search_lower = initialsOf parts then [(9 : ℚ)/10] else [])

/-- `score = max(scores)` for one member. -/
def fuzzyScoreOf (search_lower : String) (user : User) : ℚ :=
  listMax (fuzzyScores search_lower (pyStrip user.name))

/-- One iteration of the fuzzy loop: skip empty names; candidates need
`score >= 0.5`; track the strictly best `(best_match, best_score)`. -/
def fuzzyStep (search_lower : String) (acc : Option User × ℚ) (user : User) :
    Option User × ℚ :=
  if pyStrip user.name = "" then acc
  else if (1 : ℚ)/2 ≤ fuzzyScoreOf search_lower user then
    (if acc.2 < fuzzyScoreOf search_lower user then
      (some user, fuzzyScoreOf search_lower user)
    else acc)
  else acc

/-- `find_user_by_name(search_name)`: guard, exact path via the index, then
the fuzzy loop with acceptance threshold 0.6. -/
def find_user_by_name (workspace_users : List User)
    (user_name_mapping : NameMapping) (search_name : String) : Option User :=
  if search_name = "" ∨ workspace_users = [] then none
  else
    match lookupKey user_name_mapping (pyLower (pyStrip search_name)) with
    | some user_id => workspace_users.find? (fun u => u.id == user_id)
    | none =>
      match workspace_users.foldl
          (fuzzyStep (pyLower (pyStrip search_name))) (none, 0) with
      | (some best_match, best_score) =>
        if (6 : ℚ)/10 ≤ best_score then some best_match else none
      | (none, _) => none

/-- `get_user_id_by_name`: extract the id of a match (the dict always has
an `"id"` key in this model). -/
def get_user_id_by_name (workspace_users : List User)
    (user_name_mapping : NameMapping) (name : String) : Option String :=
  match find_user_by_name workspace_users user_name_mapping name with
  | some user => some user.id
  | none => none

/-! ### Suggestion ranker (`get_name_suggestions`) -/

/-- One suggestion record `{"user": user, "score": score, "name": user_name}`. -/
structure Suggestion where
  user : User
  score : ℚ
  name : String
deriving DecidableEq, Repr

/-- The additive relevance score of `get_name_suggestions` (lines 214-236):
starts-with 0.8, contains 0.6, first-token starts-with 0.9, last-token
starts-with 0.7 (≥2 tokens), plus similarity × 0.5. -/
def suggestionScore (partial_lower : String) (user_name : String) : ℚ :=
  let unl := pyLower user_name
  let parts := pySplit user_name
  (if pyStartsWith unl partial_lower then (8 : ℚ)/10 else 0)
  + (if substr partial_lower unl then (6 : ℚ)/10 else 0)
  + (if parts ≠ [] ∧ pyStartsWith (pyLower (parts.headD "")) partial_lower
     then (9 : ℚ)/10 else 0)
  + (if 1 < parts.length ∧ pyStartsWith (pyLower (parts.getLastD "")) partial_lower
     then (7 : ℚ)/10 else 0)
  + pyRatio partial_lower unl * ((5 : ℚ)/10)

/-- The suggestion list accumulated in directory order (the appends of the
loop), keeping only scores `> 0.3`. -/
def scoredSuggestions (workspace_users : List User) (partial_lower : String) :
    List Suggestion :=
  workspace_users.filterMap (fun user =>
    if pyStrip user.name = "" then none
    else
      if (3 : ℚ)/10 < suggestionScore partial_lower (pyStrip user.name) then
        some ⟨user, suggestionScore partial_lower (pyStrip user.name),
          pyStrip user.name⟩
      else none)

/-- Stable descending insertion: an element moves past strictly smaller
scores only, so equal scores keep their original order — the behaviour of
Python's stable `sort(key=..., reverse=True)`. -/
def insertDesc (x : Suggestion) : List Suggestion → List Suggestion
  | [] => [x]
  | y :: ys => if x.score < y.score then y :: insertDesc x ys else x :: y :: ys

/-- Stable sort by descending score. -/
def sortDescStable : List Suggestion → List Suggestion
  | [] => []
  | x :: xs => insertDesc x (sortDescStable xs)

/-- `get_name_suggestions(partial_name, limit)`. -/
def get_name_suggestions (workspace_users : List User) (pname : String)
    (limit : Nat := 5) : List Suggestion :=
  if pname = "" ∨ workspace_users = [] then []
  else
    (sortDescStable
      (scoredSuggestions workspace_users (pyLower (pyStrip pname)))).take limit

/-! ### The `match_user_name` endpoint (`notion_workspace_api.py`) -/

/-- The `NameMatchResponse` payload (member fields beyond id/name omitted). -/
structure NameMatchResponse where
  found : Bool
  user : Option User
  confidence_score : Option ℚ
  original_search : String
deriving DecidableEq, Repr

/-- The body of the `/match-name` handler: on a hit the reported confidence
is `SequenceMatcher(None, request.name.lower(), user["name"].lower()).ratio()`
— recomputed, not the resolver's score. -/
def match_user_name (workspace_users : List User)
    (user_name_mapping : NameMapping) (request_name : String) :
    NameMatchResponse :=
  match find_user_by_name workspace_users user_name_mapping request_name with
  | some user =>
    ⟨true, some user, some (pyRatio (pyLower request_name) (pyLower user.name)),
      request_name⟩
  | none => ⟨false, none, none, request_name⟩

/-! ### Paginated fetch (`fetch_notion_users_paginated.py`) -/

/-- A raw user object as delivered by a remote page. -/
structure RemoteUser where
  object : String
  type : String
  id : String
  name : String
deriving DecidableEq, Repr

/-- A fetched user record (the `email`/`avatar_url` fields are copied
verbatim and never affect control flow; omitted). -/
structure FetchedUser where
  id : String
  name : String
  type : String
deriving DecidableEq, Repr

/-- The per-page filter of `fetch_users_in_batches`: keep person-type user
objects, in page order. -/
def pagePersons (page : List RemoteUser) : List FetchedUser :=
  (page.filter (fun u => u.object == "user" && u.type == "person")).map
    (fun u => ⟨u.id, u.name, u.type⟩)

/-- `fetch_users_in_batches`, with the cursor-driven page sequence abstracted
as the list of pages the remote would deliver: each batch is appended with
`all_users.extend(person_users)` — no deduplication. -/
def fetch_users_in_batches (pages : List (List RemoteUser)) : List FetchedUser :=
  pages.foldl (fun all_users page => all_users ++ pagePersons page) []

/-- `verify_extraction`: fails on an empty extraction and on duplicate ids
(`len(user_ids) != len(set(user_ids))`).  The required-field check of the
source is vacuous here because the record type is total. -/
def verify_extraction (users : List FetchedUser) : Bool :=
  if users = [] then false
  else if (users.map (·.id)).length ≠ (users.map (·.id)).dedup.length then false
  else true

/-! ### Bounds for the `SequenceMatcher` model

The best triple of `find_longest_match` always describes a block inside the
requested rectangle; consequently the total matched size is at most the
length of either side, and `ratio` lands in `[0, 1]`. -/

/-- The best triple `(besti, bestj, bestsize)` lies inside
`[alo, ahi) × [blo, bhi)`. -/
def BInv (alo ahi blo bhi : Nat) (t : Nat × Nat × Nat) : Prop :=
  alo ≤ t.1 ∧ blo ≤ t.2.1 ∧ t.1 + t.2.2 ≤ ahi ∧ t.2.1 + t.2.2 ≤ bhi

/-- Invariant of the `j2len` map before row `i` is processed: every recorded
run fits between `alo` (rows) and `blo` (columns). -/
def MInv (alo blo i : Nat) (m : Nat → Nat) : Prop :=
  ∀ j, m j = 0 ∨ (m j + alo ≤ i ∧ m j + blo ≤ j + 1)

theorem flmStep_inv (oldm : Nat → Nat) (alo ahi blo bhi i j : Nat)
    (acc : (Nat → Nat) × (Nat × Nat × Nat))
    (hai : alo ≤ i) (hia : i < ahi)
    (hold : MInv alo blo i oldm)
    (h1 : MInv alo blo (i + 1) acc.1) (h2 : BInv alo ahi blo bhi acc.2) :
    MInv alo blo (i + 1) (flmStep oldm i blo bhi acc j).1 ∧
    BInv alo ahi blo bhi (flmStep oldm i blo bhi acc j).2 := by
  unfold flmStep
  by_cases hg : blo ≤ j ∧ j < bhi
  · simp only [if_pos hg]
    have hkb : ((if j = 0 then 0 else oldm (j - 1)) + 1) + alo ≤ i + 1 ∧
        ((if j = 0 then 0 else oldm (j - 1)) + 1) + blo ≤ j + 1 := by
      by_cases hj0 : j = 0
      · rw [if_pos hj0]
        subst hj0
        omega
      · rw [if_neg hj0]
        rcases hold (j - 1) with hz | ⟨hv1, hv2⟩
        · rw [hz]; omega
        · omega
    constructor
    · intro j'
      by_cases hjj : j' = j
      · simp only [hjj, if_pos rfl]
        exact Or.inr hkb
      · simp only [if_neg hjj]
        exact h1 j'
    · by_cases hlt : acc.2.2.2 < (if j = 0 then 0 else oldm (j - 1)) + 1
      · simp only [if_pos hlt]
        refine ⟨?_, ?_, ?_, ?_⟩ <;> simp only [] <;> omega
      · simp only [if_neg hlt]
        exact h2
  · simp only [if_neg hg]
    exact ⟨h1, h2⟩

theorem foldl_flmStep_inv (oldm : Nat → Nat) (alo ahi blo bhi i : Nat)
    (hai : alo ≤ i) (hia : i < ahi) (hold : MInv alo blo i oldm) :
    ∀ (js : List Nat) (acc : (Nat → Nat) × (Nat × Nat × Nat)),
      MInv alo blo (i + 1) acc.1 → BInv alo ahi blo bhi acc.2 →
      MInv alo blo (i + 1) (js.foldl (flmStep oldm i blo bhi) acc).1 ∧
      BInv alo ahi blo bhi (js.foldl (flmStep oldm i blo bhi) acc).2 := by
  intro js
  induction js with
  | nil => intro acc h1 h2; exact ⟨h1, h2⟩
  | cons j js ih =>
    intro acc h1 h2
    simp only [List.foldl_cons]
    have hs := flmStep_inv oldm alo ahi blo bhi i j acc hai hia hold h1 h2
    exact ih _ hs.1 hs.2

theorem flmRow_inv (a b : List Char) (alo ahi blo bhi : Nat)
    (st : (Nat → Nat) × (Nat × Nat × Nat)) (i : Nat)
    (hai : alo ≤ i) (hia : i < ahi)
    (hm : MInv alo blo i st.1) (hb : BInv alo ahi blo bhi st.2) :
    MInv alo blo (i + 1) (flmRow a b blo bhi st i).1 ∧
    BInv alo ahi blo bhi (flmRow a b blo bhi st i).2 := by
  unfold flmRow
  exact foldl_flmStep_inv st.1 alo ahi blo bhi i hai hia hm _
    ((fun _ => 0), st.2) (fun j => Or.inl rfl) hb

theorem flmDP_inv (a b : List Char) (alo ahi blo bhi : Nat)
    (h1 : alo ≤ ahi) (h2 : blo ≤ bhi) :
    BInv alo ahi blo bhi (flmDP a b alo ahi blo bhi) := by
  unfold flmDP
  suffices h : ∀ (n i0 : Nat) (st : (Nat → Nat) × (Nat × Nat × Nat)),
      alo ≤ i0 → i0 + n ≤ ahi → MInv alo blo i0 st.1 →
      BInv alo ahi blo bhi st.2 →
      BInv alo ahi blo bhi
        (((List.range' i0 n).foldl (flmRow a b blo bhi) st)).2 by
    refine h (ahi - alo) alo _ le_rfl (by omega) (fun j => Or.inl rfl) ?_
    refine ⟨le_rfl, le_rfl, ?_, ?_⟩ <;> simp only [] <;> omega
  intro n
  induction n with
  | zero => intro i0 st _ _ _ hb; exact hb
  | succ n ih =>
    intro i0 st h01 h0n hm hb
    rw [List.range'_succ]
    simp only [List.foldl_cons]
    have hstep := flmRow_inv a b alo ahi blo bhi st i0 h01 (by omega) hm hb
    exact ih (i0 + 1) _ (by omega) (by omega) hstep.1 hstep.2

theorem extendLeftF_inv (a b : List Char) (alo ahi blo bhi : Nat) :
    ∀ (fuel bi bj bs : Nat), alo ≤ bi → blo ≤ bj → bi + bs ≤ ahi →
      bj + bs ≤ bhi →
      BInv alo ahi blo bhi (extendLeftF a b alo blo fuel bi bj bs) := by
  intro fuel
  induction fuel with
  | zero => intro bi bj bs h1 h2 h3 h4; exact ⟨h1, h2, h3, h4⟩
  | succ fuel ih =>
    intro bi bj bs h1 h2 h3 h4
    unfold extendLeftF
    by_cases hg : alo < bi ∧ blo < bj ∧ matchAt a b (bi - 1) (bj - 1)
    · simp only [if_pos hg]
      exact ih (bi - 1) (bj - 1) (bs + 1) (by omega) (by omega) (by omega)
        (by omega)
    · simp only [if_neg hg]; exact ⟨h1, h2, h3, h4⟩

theorem extendRightF_inv (a b : List Char) (ahi bhi : Nat) :
    ∀ (fuel bi bj bs : Nat), bi + bs ≤ ahi → bj + bs ≤ bhi →
      bi + extendRightF a b ahi bhi fuel bi bj bs ≤ ahi ∧
      bj + extendRightF a b ahi bhi fuel bi bj bs ≤ bhi := by
  intro fuel
  induction fuel with
  | zero => intro bi bj bs h1 h2; exact ⟨h1, h2⟩
  | succ fuel ih =>
    intro bi bj bs h1 h2
    unfold extendRightF
    by_cases hg : bi + bs < ahi ∧ bj + bs < bhi ∧ matchAt a b (bi + bs) (bj + bs)
    · simp only [if_pos hg]
      exact ih bi bj (bs + 1) (by omega) (by omega)
    · simp only [if_neg hg]; exact ⟨h1, h2⟩

theorem findLongestMatch_inv (a b : List Char) (alo ahi blo bhi : Nat)
    (h1 : alo ≤ ahi) (h2 : blo ≤ bhi) :
    BInv alo ahi blo bhi (findLongestMatch a b alo ahi blo bhi) := by
  obtain ⟨ha, hb, hc, hd⟩ := flmDP_inv a b alo ahi blo bhi h1 h2
  obtain ⟨hLa, hLb, hLc, hLd⟩ :=
    extendLeftF_inv a b alo ahi blo bhi ((flmDP a b alo ahi blo bhi).1 - alo)
      (flmDP a b alo ahi blo bhi).1 (flmDP a b alo ahi blo bhi).2.1
      (flmDP a b alo ahi blo bhi).2.2 ha hb hc hd
  obtain ⟨hRa, hRb⟩ := extendRightF_inv a b ahi bhi
    (ahi - ((extendLeftF a b alo blo ((flmDP a b alo ahi blo bhi).1 - alo)
        (flmDP a b alo ahi blo bhi).1 (flmDP a b alo ahi blo bhi).2.1
        (flmDP a b alo ahi blo bhi).2.2).1 +
      (extendLeftF a b alo blo ((flmDP a b alo ahi blo bhi).1 - alo)
        (flmDP a b alo ahi blo bhi).1 (flmDP a b alo ahi blo bhi).2.1
        (flmDP a b alo ahi blo bhi).2.2).2.2))
    (extendLeftF a b alo blo ((flmDP a b alo ahi blo bhi).1 - alo)
      (flmDP a b alo ahi blo bhi).1 (flmDP a b alo ahi blo bhi).2.1
      (flmDP a b alo ahi blo bhi).2.2).1
    (extendLeftF a b alo blo ((flmDP a b alo ahi blo bhi).1 - alo)
      (flmDP a b alo ahi blo bhi).1 (flmDP a b alo ahi blo bhi).2.1
      (flmDP a b alo ahi blo bhi).2.2).2.1
    (extendLeftF a b alo blo ((flmDP a b alo ahi blo bhi).1 - alo)
      (flmDP a b alo ahi blo bhi).1 (flmDP a b alo ahi blo bhi).2.1
      (flmDP a b alo ahi blo bhi).2.2).2.2 hLc hLd
  exact ⟨hLa, hLb, hRa, hRb⟩

/-- With an empty row range the matcher returns the trivial block. -/
theorem findLongestMatch_degA (a b : List Char) (alo ahi blo bhi : Nat)
    (h : ahi ≤ alo) : findLongestMatch a b alo ahi blo bhi = (alo, blo, 0) := by
  have h0 : ahi - alo = 0 := by omega
  have h1 : ahi - (alo + 0) = 0 := by omega
  simp [findLongestMatch, flmDP, h0, h1, List.range', extendLeftF, extendRightF,
    Nat.sub_self]

/-- With an empty column range no inner-loop step fires and the matcher
returns the trivial block. -/
theorem findLongestMatch_degB (a b : List Char) (alo ahi blo bhi : Nat)
    (h : bhi ≤ blo) : findLongestMatch a b alo ahi blo bhi = (alo, blo, 0) := by
  have hstep : ∀ (oldm : Nat → Nat) (i : Nat)
      (acc : (Nat → Nat) × (Nat × Nat × Nat)) (j : Nat),
      flmStep oldm i blo bhi acc j = acc := by
    intro oldm i acc j
    unfold flmStep
    rw [if_neg (by omega)]
  have hfold : ∀ (oldm : Nat → Nat) (i : Nat) (js : List Nat)
      (acc : (Nat → Nat) × (Nat × Nat × Nat)),
      js.foldl (flmStep oldm i blo bhi) acc = acc := by
    intro oldm i js
    induction js with
    | nil => intro acc; rfl
    | cons j js ih =>
      intro acc
      simp only [List.foldl_cons, hstep]
      exact ih acc
  have hrow : ∀ (st : (Nat → Nat) × (Nat × Nat × Nat)) (i : Nat),
      (flmRow a b blo bhi st i).2 = st.2 := by
    intro st i
    unfold flmRow
    rw [hfold]
  have hrows : ∀ (rows : List Nat) (st : (Nat → Nat) × (Nat × Nat × Nat)),
      ((rows.foldl (flmRow a b blo bhi) st)).2 = st.2 := by
    intro rows
    induction rows with
    | nil => intro st; rfl
    | cons i rows ih =>
      intro st
      simp only [List.foldl_cons]
      rw [ih, hrow]
  have hdp : flmDP a b alo ahi blo bhi = (alo, blo, 0) := by
    unfold flmDP
    rw [hrows]
  have hright : ∀ (fuel bi bj bs : Nat), bhi ≤ bj →
      extendRightF a b ahi bhi fuel bi bj bs = bs := by
    intro fuel
    induction fuel with
    | zero => intro bi bj bs _; rfl
    | succ fuel ih =>
      intro bi bj bs hbj
      unfold extendRightF
      rw [if_neg (by rintro ⟨-, h2, -⟩; omega)]
  show (let t0 := flmDP a b alo ahi blo bhi;
    let t1 := extendLeftF a b alo blo (t0.1 - alo) t0.1 t0.2.1 t0.2.2;
    (t1.1, t1.2.1,
      extendRightF a b ahi bhi (ahi - (t1.1 + t1.2.2)) t1.1 t1.2.1 t1.2.2)) =
    (alo, blo, 0)
  rw [hdp]
  simp only [Nat.sub_self, extendLeftF]
  rw [hright _ _ _ _ h]

/-- Whenever `find_longest_match` reports a non-trivial block, that block
lies inside the requested rectangle (no hypotheses on the rectangle). -/
theorem findLongestMatch_pos (a b : List Char) (alo ahi blo bhi : Nat)
    (hk : 0 < (findLongestMatch a b alo ahi blo bhi).2.2) :
    BInv alo ahi blo bhi (findLongestMatch a b alo ahi blo bhi) := by
  by_cases h1 : alo ≤ ahi
  · by_cases h2 : blo ≤ bhi
    · exact findLongestMatch_inv a b alo ahi blo bhi h1 h2
    · rw [findLongestMatch_degB a b alo ahi blo bhi (by omega)] at hk
      simp at hk
  · rw [findLongestMatch_degA a b alo ahi blo bhi (by omega)] at hk
    simp at hk

/-- The total matched size is at most the number of rows of the rectangle. -/
theorem matchesInF_le_a (a b : List Char) :
    ∀ (fuel alo ahi blo bhi : Nat),
      matchesInF a b fuel alo ahi blo bhi ≤ ahi - alo := by
  intro fuel
  induction fuel with
  | zero => intro alo ahi blo bhi; simp [matchesInF]
  | succ fuel ih =>
    intro alo ahi blo bhi
    have hpos := findLongestMatch_pos a b alo ahi blo bhi
    unfold matchesInF
    rcases hfm : findLongestMatch a b alo ahi blo bhi with ⟨i, j, k⟩
    rw [hfm] at hpos
    by_cases hk : 0 < k
    · obtain ⟨hA, hB, hC, hD⟩ := hpos hk
      dsimp only at hA hB hC hD
      simp only [if_pos hk]
      have hL : (if alo < i ∧ blo < j then matchesInF a b fuel alo i blo j
          else 0) ≤ i - alo := by
        split
        · exact ih alo i blo j
        · omega
      have hR : (if i + k < ahi ∧ j + k < bhi then
          matchesInF a b fuel (i + k) ahi (j + k) bhi else 0) ≤
          ahi - (i + k) := by
        split
        · exact ih (i + k) ahi (j + k) bhi
        · omega
      omega
    · simp only [if_neg hk]
      omega

/-- The total matched size is at most the number of columns. -/
theorem matchesInF_le_b (a b : List Char) :
    ∀ (fuel alo ahi blo bhi : Nat),
      matchesInF a b fuel alo ahi blo bhi ≤ bhi - blo := by
  intro fuel
  induction fuel with
  | zero => intro alo ahi blo bhi; simp [matchesInF]
  | succ fuel ih =>
    intro alo ahi blo bhi
    have hpos := findLongestMatch_pos a b alo ahi blo bhi
    unfold matchesInF
    rcases hfm : findLongestMatch a b alo ahi blo bhi with ⟨i, j, k⟩
    rw [hfm] at hpos
    by_cases hk : 0 < k
    · obtain ⟨hA, hB, hC, hD⟩ := hpos hk
      dsimp only at hA hB hC hD
      simp only [if_pos hk]
      have hL : (if alo < i ∧ blo < j then matchesInF a b fuel alo i blo j
          else 0) ≤ j - blo := by
        split
        · exact ih alo i blo j
        · omega
      have hR : (if i + k < ahi ∧ j + k < bhi then
          matchesInF a b fuel (i + k) ahi (j + k) bhi else 0) ≤
          bhi - (j + k) := by
        split
        · exact ih (i + k) ahi (j + k) bhi
        · omega
      omega
    · simp only [if_neg hk]
      omega

theorem smMatches_le_a (a b : List Char) : smMatches a b ≤ a.length := by
  have h := matchesInF_le_a a b (a.length + 1) 0 a.length 0 b.length
  simpa [smMatches] using h

theorem smMatches_le_b (a b : List Char) : smMatches a b ≤ b.length := by
  have h := matchesInF_le_b a b (a.length + 1) 0 a.length 0 b.length
  simpa [smMatches] using h

theorem pyRatio_nonneg (sa sb : String) : 0 ≤ pyRatio sa sb := by
  unfold pyRatio
  split
  · norm_num
  · positivity

theorem pyRatio_le_one (sa sb : String) : pyRatio sa sb ≤ 1 := by
  unfold pyRatio
  split
  · exact le_refl 1
  · rename_i h
    have hm1 := smMatches_le_a sa.data sb.data
    have hm2 := smMatches_le_b sa.data sb.data
    have hpos : (0 : ℚ) < (sa.data.length : ℚ) + (sb.data.length : ℚ) := by
      have : 0 < sa.data.length + sb.data.length := Nat.pos_of_ne_zero h
      exact_mod_cast this
    rw [div_le_one hpos]
    have h2 : 2 * smMatches sa.data sb.data ≤
        sa.data.length + sb.data.length := by omega
    exact_mod_cast h2

/-! ### Lookup characterisation of the index builder

`lookupKey` on the built index returns the id of the **last** member of the
directory that registers the key (last-writer-wins), because each dict
assignment shadows earlier ones. -/

theorem lookup_insert_list (u : User) :
    ∀ (ks : List String) (m : NameMapping) (k : String),
      lookupKey ((ks.map (fun k => (k, u.id))).foldl
        (fun mm p => insertKey mm p.1 p.2) m) k =
      if ks.contains k then some u.id else lookupKey m k := by
  intro ks
  induction ks with
  | nil => intro m k; simp
  | cons k0 ks ih =>
    intro m k
    simp only [List.map_cons, List.foldl_cons]
    rw [ih]
    have hone : lookupKey (insertKey m k0 u.id) k =
        if k0 == k then some u.id else lookupKey m k := by
      unfold lookupKey insertKey
      by_cases h : k0 == k
      · rw [List.find?_cons_of_pos _ (by simpa using h)]
        simp [h]
      · rw [List.find?_cons_of_neg _ (by simpa using h)]
        simp [h]
    by_cases h1 : ks.contains k
    · have hm : k ∈ ks := by simpa using h1
      simp [hm]
    · have hm : k ∉ ks := by simpa using h1
      by_cases h2 : k0 == k
      · have he : k = k0 := by
          have h3 : k0 = k := by simpa using h2
          exact h3.symm
        subst he
        have hlk : lookupKey (insertKey m k u.id) k = some u.id := by
          unfold lookupKey insertKey
          rw [List.find?_cons_of_pos _ (by simp)]
          rfl
        simp [hm, hlk]
      · have hne : k ≠ k0 := by
          intro he
          exact h2 (by simp [he])
        simp [hone, h2, hm, hne]

theorem lookup_buildStep (m : NameMapping) (u : User) (k : String) :
    lookupKey (buildStep m u) k =
      if (userKeys u).contains k then some u.id else lookupKey m k := by
  unfold buildStep
  exact lookup_insert_list u (userKeys u) m k

theorem find?_append_first {α : Type} (p : α → Bool) :
    ∀ (l1 l2 : List α), (l1 ++ l2).find? p =
      match l1.find? p with
      | some a => some a
      | none => l2.find? p := by
  intro l1
  induction l1 with
  | nil => intro l2; simp
  | cons a l1 ih =>
    intro l2
    by_cases h : p a
    · simp [List.find?_cons_of_pos _ h]
    · rw [List.cons_append, List.find?_cons_of_neg _ (by simpa using h),
        List.find?_cons_of_neg _ (by simpa using h)]
      exact ih l2

theorem lookup_build_aux (k : String) :
    ∀ (us : List User) (m : NameMapping),
      lookupKey (us.foldl buildStep m) k =
        match us.reverse.find? (fun u => (userKeys u).contains k) with
        | some u => some u.id
        | none => lookupKey m k := by
  intro us
  induction us with
  | nil => intro m; simp
  | cons u us ih =>
    intro m
    simp only [List.foldl_cons, List.reverse_cons]
    rw [ih, find?_append_first]
    rcases hfind : us.reverse.find? (fun u => (userKeys u).contains k) with _ | v
    · simp only [lookup_buildStep]
      by_cases h : (userKeys u).contains k
      · have hm : k ∈ userKeys u := by simpa using h
        simp [List.find?, hm]
      · have hm : k ∉ userKeys u := by simpa using h
        simp [List.find?, hm]
    · simp

/-- The built index maps `k` to the id of the last registrant of `k`. -/
theorem lookup_build (users : List User) (k : String) :
    lookupKey (build_name_mapping users) k =
      match users.reverse.find? (fun u => (userKeys u).contains k) with
      | some u => some u.id
      | none => none := by
  unfold build_name_mapping
  rw [lookup_build_aux]
  rcases users.reverse.find? (fun u => (userKeys u).contains k) with _ | v
  · rfl
  · rfl

/-! ### Characterisation of the fuzzy loop

`find_user_by_name`'s loop tracks the strictly-best candidate, so it returns
the first member attaining the maximal candidate score.  `candMax` is the
maximum over candidates (non-empty name, score ≥ 0.5); `eligMax` is the
maximum over all members with a non-empty name. -/

/-- Maximum score over candidates (score ≥ 0.5), `0` if none. -/
def candMax (q : String) : List User → ℚ
  | [] => 0
  | u :: us =>
    if pyStrip u.name ≠ "" ∧ (1 : ℚ)/2 ≤ fuzzyScoreOf q u then
      max (fuzzyScoreOf q u) (candMax q us)
    else candMax q us

/-- Maximum heuristic score over members with a non-empty name, `0` if none. -/
def eligMax (q : String) : List User → ℚ
  | [] => 0
  | u :: us =>
    if pyStrip u.name ≠ "" then max (fuzzyScoreOf q u) (eligMax q us)
    else eligMax q us

/-- The first member whose best heuristic score equals `M`. -/
def fuzzyArgPred (q : String) (M : ℚ) (u : User) : Bool :=
  decide (pyStrip u.name ≠ "" ∧ fuzzyScoreOf q u = M)

theorem le_foldl_max : ∀ (xs : List ℚ) (x : ℚ), x ≤ xs.foldl max x := by
  intro xs
  induction xs with
  | nil => intro x; exact le_refl x
  | cons y xs ih =>
    intro x
    simp only [List.foldl_cons]
    exact le_trans (le_max_left x y) (ih (max x y))

theorem foldl_max_le (c : ℚ) : ∀ (xs : List ℚ) (x : ℚ), x ≤ c →
    (∀ y ∈ xs, y ≤ c) → xs.foldl max x ≤ c := by
  intro xs
  induction xs with
  | nil => intro x hx _; exact hx
  | cons y xs ih =>
    intro x hx hall
    simp only [List.foldl_cons]
    exact ih (max x y) (max_le hx (hall y (by simp)))
      (fun z hz => hall z (by simp [hz]))

theorem fuzzyScoreOf_nonneg (q : String) (u : User) :
    0 ≤ fuzzyScoreOf q u := by
  unfold fuzzyScoreOf fuzzyScores listMax
  simp only [List.cons_append]
  exact le_trans (pyRatio_nonneg _ _) (le_foldl_max _ _)

theorem candMax_zero_or_ge (q : String) :
    ∀ (l : List User), candMax q l = 0 ∨ (1 : ℚ)/2 ≤ candMax q l := by
  intro l
  induction l with
  | nil => exact Or.inl rfl
  | cons u t ih =>
    by_cases hc : pyStrip u.name ≠ "" ∧ (1 : ℚ)/2 ≤ fuzzyScoreOf q u
    · right
      simp only [candMax, if_pos hc]
      exact le_trans hc.2 (le_max_left _ _)
    · simpa only [candMax, if_neg hc] using ih

theorem candMax_nonneg (q : String) (l : List User) : 0 ≤ candMax q l := by
  rcases candMax_zero_or_ge q l with h | h
  · rw [h]
  · linarith

theorem candMax_le_eligMax (q : String) :
    ∀ (l : List User), candMax q l ≤ eligMax q l := by
  intro l
  induction l with
  | nil => exact le_refl 0
  | cons u t ih =>
    by_cases he : pyStrip u.name ≠ ""
    · by_cases hs : (1 : ℚ)/2 ≤ fuzzyScoreOf q u
      · simp only [candMax, eligMax, if_pos (And.intro he hs), if_pos he]
        exact max_le_max (le_refl _) ih
      · simp only [candMax, eligMax,
          if_neg (fun hc => hs (And.right hc)), if_pos he]
        exact le_trans ih (le_max_right _ _)
    · simp only [candMax, eligMax, if_neg (fun hc => he (And.left hc)),
        if_neg he]
      exact ih

theorem candMax_eq_eligMax (q : String) :
    ∀ (l : List User), (1 : ℚ)/2 ≤ eligMax q l → candMax q l = eligMax q l := by
  intro l
  induction l with
  | nil => intro _; rfl
  | cons u t ih =>
    intro h
    by_cases he : pyStrip u.name ≠ ""
    · by_cases hs : (1 : ℚ)/2 ≤ fuzzyScoreOf q u
      · simp only [candMax, eligMax, if_pos (And.intro he hs), if_pos he]
        by_cases ht : (1 : ℚ)/2 ≤ eligMax q t
        · rw [ih ht]
        · have h1 : candMax q t ≤ eligMax q t := candMax_le_eligMax q t
          have h2 : max (fuzzyScoreOf q u) (candMax q t) = fuzzyScoreOf q u :=
            max_eq_left (by linarith)
          have h3 : max (fuzzyScoreOf q u) (eligMax q t) = fuzzyScoreOf q u :=
            max_eq_left (by linarith)
          rw [h2, h3]
      · simp only [candMax, eligMax, if_neg (fun hc => hs (And.right hc)),
          if_pos he] at h ⊢
        have ht : (1 : ℚ)/2 ≤ eligMax q t := by
          rcases max_cases (fuzzyScoreOf q u) (eligMax q t) with ⟨h1, h2⟩ | ⟨h1, h2⟩
          · rw [h1] at h; linarith
          · rw [h1] at h; exact h
        rw [ih ht]
        exact (max_eq_right (by linarith)).symm
    · simp only [eligMax, if_neg he] at h
      simp only [candMax, eligMax, if_neg (fun hc => he (And.left hc)),
        if_neg he]
      exact ih h

theorem eligMax_attained (q : String) :
    ∀ (l : List User), 0 < eligMax q l →
      ∃ u ∈ l, pyStrip u.name ≠ "" ∧ fuzzyScoreOf q u = eligMax q l := by
  intro l
  induction l with
  | nil => intro h; norm_num [eligMax] at h
  | cons u t ih =>
    intro h
    by_cases he : pyStrip u.name ≠ ""
    · simp only [eligMax, if_pos he] at h ⊢
      rcases max_cases (fuzzyScoreOf q u) (eligMax q t) with ⟨h1, h2⟩ | ⟨h1, h2⟩
      · exact ⟨u, by simp, he, h1.symm⟩
      · obtain ⟨v, hv, hv1, hv2⟩ := ih (by rw [h1] at h; exact h)
        exact ⟨v, by simp [hv], hv1, by rw [hv2, h1]⟩
    · simp only [eligMax, if_neg he] at h ⊢
      obtain ⟨v, hv, hv1, hv2⟩ := ih h
      exact ⟨v, by simp [hv], hv1, hv2⟩

/-- The fuzzy loop computes `(first member attaining the candidate maximum,
candidate maximum)`, provided the running best exceeds no candidate
(`bs < candMax`); otherwise it leaves the accumulator untouched. -/
theorem fuzzyFold_spec (q : String) :
    ∀ (l : List User) (bm : Option User) (bs : ℚ), 0 ≤ bs →
      (l.foldl (fuzzyStep q) (bm, bs)).2 = max bs (candMax q l)
      ∧ (candMax q l ≤ bs → (l.foldl (fuzzyStep q) (bm, bs)).1 = bm)
      ∧ (bs < candMax q l →
          (l.foldl (fuzzyStep q) (bm, bs)).1 =
            l.find? (fuzzyArgPred q (candMax q l))) := by
  intro l
  induction l with
  | nil =>
    intro bm bs h0
    refine ⟨?_, fun _ => rfl, ?_⟩
    · show bs = max bs (candMax q [])
      rw [show candMax q [] = 0 from rfl, max_eq_left h0]
    · intro hlt
      rw [show candMax q [] = 0 from rfl] at hlt
      linarith
  | cons u t ih =>
    intro bm bs h0
    simp only [List.foldl_cons]
    by_cases he : pyStrip u.name = ""
    · have hstep : fuzzyStep q (bm, bs) u = (bm, bs) := by
        simp [fuzzyStep, he]
      have hc : candMax q (u :: t) = candMax q t := by
        simp [candMax, he]
      rw [hstep, hc]
      obtain ⟨ih1, ih2, ih3⟩ := ih bm bs h0
      refine ⟨ih1, ih2, ?_⟩
      intro hlt
      rw [ih3 hlt, List.find?_cons_of_neg _ (by simp [fuzzyArgPred, he])]
    · by_cases hs : (1 : ℚ)/2 ≤ fuzzyScoreOf q u
      · by_cases hb : bs < fuzzyScoreOf q u
        · -- the step promotes `u` to the running best
          have hstep : fuzzyStep q (bm, bs) u =
              (some u, fuzzyScoreOf q u) := by
            simp [fuzzyStep, he, hs, hb]
            intro h
            linarith
          have hc : candMax q (u :: t) =
              max (fuzzyScoreOf q u) (candMax q t) := by
            simp [candMax, he, hs]
            intro h
            linarith
          obtain ⟨ih1, ih2, ih3⟩ :=
            ih (some u) (fuzzyScoreOf q u) (fuzzyScoreOf_nonneg q u)
          rw [hstep, hc]
          refine ⟨?_, ?_, ?_⟩
          · rw [ih1,
              max_eq_right (le_trans (le_of_lt hb) (le_max_left _ _))]
          · intro hle
            have : fuzzyScoreOf q u ≤ bs :=
              le_trans (le_max_left _ _) hle
            linarith
          · intro _
            rcases le_or_lt (candMax q t) (fuzzyScoreOf q u) with hts | hts
            · have hM : max (fuzzyScoreOf q u) (candMax q t) =
                  fuzzyScoreOf q u := max_eq_left hts
              rw [hM, ih2 hts,
                List.find?_cons_of_pos _ (by simp [fuzzyArgPred, he])]
            · have hM : max (fuzzyScoreOf q u) (candMax q t) =
                  candMax q t := max_eq_right (le_of_lt hts)
              rw [hM, ih3 hts,
                List.find?_cons_of_neg _ (by
                  simp only [fuzzyArgPred, decide_eq_true_eq, not_and]
                  intro _ heq
                  exact absurd heq (by linarith))]
        · -- candidate, but not better than the running best
          have hs' : fuzzyScoreOf q u ≤ bs := not_lt.1 hb
          have hstep : fuzzyStep q (bm, bs) u = (bm, bs) := by
            simp [fuzzyStep, he, hs, hb]
          have hc : candMax q (u :: t) =
              max (fuzzyScoreOf q u) (candMax q t) := by
            simp [candMax, he, hs]
            intro h
            linarith
          obtain ⟨ih1, ih2, ih3⟩ := ih bm bs h0
          rw [hstep, hc]
          refine ⟨?_, ?_, ?_⟩
          · rw [ih1, ← max_assoc, max_eq_left hs']
          · intro hle
            exact ih2 (le_trans (le_max_right _ _) hle)
          · intro hlt
            have hX : bs < candMax q t := by
              rcases lt_max_iff.1 hlt with h | h
              · linarith
              · exact h
            have hM : max (fuzzyScoreOf q u) (candMax q t) = candMax q t :=
              max_eq_right (by linarith)
            rw [hM, ih3 hX,
              List.find?_cons_of_neg _ (by
                simp only [fuzzyArgPred, decide_eq_true_eq, not_and]
                intro _ heq
                exact absurd heq (by linarith))]
      · -- not a candidate (score < 0.5)
        have hstep : fuzzyStep q (bm, bs) u = (bm, bs) := by
          simp [fuzzyStep, he, hs]
          intro h1 _
          exfalso
          exact hs (by linarith)
        have hc : candMax q (u :: t) = candMax q t := by
          simp [candMax, hs]
          intro _ h1
          exfalso
          exact hs (by linarith)
        obtain ⟨ih1, ih2, ih3⟩ := ih bm bs h0
        rw [hstep, hc]
        refine ⟨ih1, ih2, ?_⟩
        intro hlt
        rcases candMax_zero_or_ge q t with hz | hge
        · rw [hz] at hlt; linarith
        · rw [ih3 hlt,
            List.find?_cons_of_neg _ (by
              simp only [fuzzyArgPred, decide_eq_true_eq, not_and]
              intro _ heq
              rw [heq] at hs
              exact absurd hge hs)]

/-- On an exact-index miss, `find_user_by_name` returns the first member
attaining the maximal heuristic score iff that maximum reaches the 0.6
acceptance threshold, and `NotFound` (`none`) otherwise. -/
theorem find_user_fuzzy (users : List User) (q : String)
    (hq : q ≠ "") (hu : users ≠ [])
    (hmiss : lookupKey (build_name_mapping users) (pyLower (pyStrip q)) = none) :
    find_user_by_name users (build_name_mapping users) q =
      if (6 : ℚ)/10 ≤ eligMax (pyLower (pyStrip q)) users then
        users.find? (fuzzyArgPred (pyLower (pyStrip q))
          (eligMax (pyLower (pyStrip q)) users))
      else none := by
  unfold find_user_by_name
  rw [if_neg (by simp [hq, hu]), hmiss]
  obtain ⟨h1, h2, h3⟩ :=
    fuzzyFold_spec (pyLower (pyStrip q)) users none 0 le_rfl
  rcases hr : users.foldl (fuzzyStep (pyLower (pyStrip q))) (none, 0)
    with ⟨obm, obs⟩
  rw [hr] at h1 h2 h3
  dsimp only at h1 h2 h3
  have hobs : obs = candMax (pyLower (pyStrip q)) users := by
    rw [h1, max_eq_right (candMax_nonneg _ _)]
  by_cases hM : (6 : ℚ)/10 ≤ eligMax (pyLower (pyStrip q)) users
  · have hce : candMax (pyLower (pyStrip q)) users =
        eligMax (pyLower (pyStrip q)) users :=
      candMax_eq_eligMax _ users (by linarith)
    have hlt : (0 : ℚ) < candMax (pyLower (pyStrip q)) users := by
      rw [hce]; linarith
    have hobm := h3 hlt
    rw [hce] at hobm
    obtain ⟨u0, hmem, hne, heq⟩ :=
      eligMax_attained (pyLower (pyStrip q)) users (by linarith)
    have hex : ∃ x, x ∈ users ∧
        fuzzyArgPred (pyLower (pyStrip q))
          (eligMax (pyLower (pyStrip q)) users) x := by
      exact ⟨u0, hmem, by simp [fuzzyArgPred, hne, heq]⟩
    have hsome : (users.find? (fuzzyArgPred (pyLower (pyStrip q))
        (eligMax (pyLower (pyStrip q)) users))).isSome :=
      List.find?_isSome.2 hex
    obtain ⟨v0, hv0⟩ := Option.isSome_iff_exists.1 hsome
    rw [hv0] at hobm
    rw [hobm]
    have hobs' : obs = eligMax (pyLower (pyStrip q)) users := by
      rw [hobs, hce]
    rw [if_pos hM, hv0]
    dsimp only
    rw [if_pos (by rw [hobs']; exact hM)]
  · rw [if_neg hM]
    have hlow : obs < (6 : ℚ)/10 := by
      have := candMax_le_eligMax (pyLower (pyStrip q)) users
      rw [hobs]
      push_neg at hM
      linarith
    rcases obm with _ | v
    · rfl
    · dsimp only
      rw [if_neg (by linarith)]

/-! ### Properties of the stable descending sort -/

/-- Inserting splits the list at the first element not strictly above `x`:
the prefix keeps strictly larger scores only. -/
theorem insertDesc_decomp (x : Suggestion) :
    ∀ (l : List Suggestion), ∃ l1 l2, l = l1 ++ l2 ∧
      insertDesc x l = l1 ++ x :: l2 ∧ ∀ y ∈ l1, x.score < y.score := by
  intro l
  induction l with
  | nil => exact ⟨[], [], rfl, rfl, by simp⟩
  | cons y ys ih =>
    by_cases h : x.score < y.score
    · obtain ⟨l1, l2, he1, he2, hgt⟩ := ih
      refine ⟨y :: l1, l2, by rw [List.cons_append, ← he1], ?_, ?_⟩
      · show insertDesc x (y :: ys) = y :: (l1 ++ x :: l2)
        rw [insertDesc, if_pos h, he2]
      · intro z hz
        rcases List.mem_cons.1 hz with hz | hz
        · rw [hz]; exact h
        · exact hgt z hz
    · refine ⟨[], y :: ys, rfl, ?_, by simp⟩
      rw [insertDesc, if_neg h]
      rfl

theorem insertDesc_mem (x z : Suggestion) :
    ∀ (l : List Suggestion), z ∈ insertDesc x l → z = x ∨ z ∈ l := by
  intro l hz
  obtain ⟨l1, l2, he1, he2, -⟩ := insertDesc_decomp x l
  rw [he2] at hz
  rcases List.mem_append.1 hz with h | h
  · exact Or.inr (he1 ▸ List.mem_append.2 (Or.inl h))
  · rcases List.mem_cons.1 h with h | h
    · exact Or.inl h
    · exact Or.inr (he1 ▸ List.mem_append.2 (Or.inr h))

theorem sortDescStable_mem (z : Suggestion) :
    ∀ (l : List Suggestion), z ∈ sortDescStable l → z ∈ l := by
  intro l
  induction l with
  | nil => intro h; simp [sortDescStable] at h
  | cons x xs ih =>
    intro h
    rcases insertDesc_mem x z (sortDescStable xs) h with h | h
    · simp [h]
    · simp [ih h]

theorem insertDesc_pairwise (x : Suggestion) :
    ∀ (l : List Suggestion),
      l.Pairwise (fun a b => b.score ≤ a.score) →
      (insertDesc x l).Pairwise (fun a b => b.score ≤ a.score) := by
  intro l
  induction l with
  | nil => intro _; simp [insertDesc]
  | cons y ys ih =>
    intro hp
    rw [List.pairwise_cons] at hp
    obtain ⟨hy, hys⟩ := hp
    by_cases h : x.score < y.score
    · rw [insertDesc, if_pos h]
      rw [List.pairwise_cons]
      refine ⟨?_, ih hys⟩
      intro z hz
      rcases insertDesc_mem x z ys hz with hz | hz
      · rw [hz]; exact le_of_lt h
      · exact hy z hz
    · rw [insertDesc, if_neg h]
      rw [List.pairwise_cons]
      refine ⟨?_, List.pairwise_cons.2 ⟨hy, hys⟩⟩
      intro z hz
      rcases List.mem_cons.1 hz with hz | hz
      · rw [hz]; exact not_lt.1 h
      · exact le_trans (hy z hz) (not_lt.1 h)

theorem sortDescStable_pairwise :
    ∀ (l : List Suggestion),
      (sortDescStable l).Pairwise (fun a b => b.score ≤ a.score) := by
  intro l
  induction l with
  | nil => simp [sortDescStable]
  | cons x xs ih => exact insertDesc_pairwise x (sortDescStable xs) ih

/-- Stability: for every score value, the sorted list lists the suggestions
carrying that score in exactly their original order. -/
theorem sortDescStable_filter (c : ℚ) :
    ∀ (l : List Suggestion),
      (sortDescStable l).filter (fun s => decide (s.score = c)) =
        l.filter (fun s => decide (s.score = c)) := by
  intro l
  induction l with
  | nil => rfl
  | cons x xs ih =>
    show (insertDesc x (sortDescStable xs)).filter
        (fun s => decide (s.score = c)) =
      (x :: xs).filter (fun s => decide (s.score = c))
    obtain ⟨l1, l2, he1, he2, hgt⟩ := insertDesc_decomp x (sortDescStable xs)
    rw [he2, List.filter_append]
    by_cases hx : x.score = c
    · have hl1 : l1.filter (fun s => decide (s.score = c)) = [] := by
        rw [List.filter_eq_nil_iff]
        intro y hy
        simp only [decide_eq_true_eq]
        have := hgt y hy
        intro hc
        rw [hx] at this
        rw [hc] at this
        exact lt_irrefl c this
      rw [hl1]
      have hfx : (x :: l2).filter (fun s => decide (s.score = c)) =
          x :: l2.filter (fun s => decide (s.score = c)) := by
        rw [List.filter_cons_of_pos (by simp [hx])]
      rw [hfx]
      have hxs : xs.filter (fun s => decide (s.score = c)) =
          l2.filter (fun s => decide (s.score = c)) := by
        rw [← ih, he1, List.filter_append, hl1]
        rfl
      rw [List.filter_cons_of_pos (by simp [hx]), hxs]
      rfl
    · have hfx : (x :: l2).filter (fun s => decide (s.score = c)) =
          l2.filter (fun s => decide (s.score = c)) := by
        rw [List.filter_cons_of_neg (by simp [hx])]
      rw [hfx, ← List.filter_append, ← he1, ih,
        List.filter_cons_of_neg (by simp [hx])]

/-- Membership characterisation of the pre-sort suggestion list. -/
theorem scoredSuggestions_mem (users : List User) (p : String)
    (s : Suggestion) (hs : s ∈ scoredSuggestions users p) :
    s.user ∈ users ∧ pyStrip s.user.name ≠ "" ∧
    s.name = pyStrip s.user.name ∧
    s.score = suggestionScore p (pyStrip s.user.name) ∧
    (3 : ℚ)/10 < s.score := by
  unfold scoredSuggestions at hs
  obtain ⟨u, hu, hf⟩ := List.mem_filterMap.1 hs
  by_cases he : pyStrip u.name = ""
  · rw [if_pos he] at hf
    exact absurd hf (by simp)
  · rw [if_neg he] at hf
    by_cases hsc : (3 : ℚ)/10 < suggestionScore p (pyStrip u.name)
    · rw [if_pos hsc] at hf
      have hse : s = Suggestion.mk u (suggestionScore p (pyStrip u.name))
          (pyStrip u.name) := (Option.some.inj hf).symm
      subst hse
      exact ⟨hu, he, rfl, rfl, hsc⟩
    · rw [if_neg hsc] at hf
      exact absurd hf (by simp)

/-! ### Score range lemmas -/

theorem mem_ite_singleton {x v : ℚ} {c : Prop} [Decidable c]
    (h : x ∈ (if c then [v] else ([] : List ℚ))) : x = v := by
  split at h
  · simpa using h
  · simp at h

theorem fuzzyScores_bounds (q n : String) :
    ∀ x ∈ fuzzyScores q n, 0 ≤ x ∧ x ≤ 1 := by
  intro x hx
  unfold fuzzyScores at hx
  simp only [] at hx
  rcases List.mem_append.1 hx with h | h
  · rcases List.mem_append.1 h with h | h
    · rcases List.mem_append.1 h with h | h
      · rcases List.mem_append.1 h with h | h
        · rcases List.mem_append.1 h with h | h
          · have : x = pyRatio q (pyLower n) := by simpa using h
            rw [this]
            exact ⟨pyRatio_nonneg _ _, pyRatio_le_one _ _⟩
          · rw [mem_ite_singleton h]; norm_num
        · rw [mem_ite_singleton h]; norm_num
      · rw [mem_ite_singleton h]; norm_num
    · obtain ⟨part, -, hx2⟩ := List.mem_filterMap.1 h
      split at hx2
      · have : x = (85 : ℚ)/100 := (Option.some.inj hx2).symm
        rw [this]; norm_num
      · simp at hx2
  · rw [mem_ite_singleton h]; norm_num

theorem fuzzyScoreOf_le_one (q : String) (u : User) :
    fuzzyScoreOf q u ≤ 1 := by
  unfold fuzzyScoreOf
  have hb := fuzzyScores_bounds q (pyStrip u.name)
  rcases hsc : fuzzyScores q (pyStrip u.name) with _ | ⟨y, ys⟩
  · show listMax [] ≤ 1
    norm_num [listMax]
  · show listMax (y :: ys) ≤ 1
    rw [listMax]
    refine foldl_max_le 1 ys y ?_ ?_
    · exact (hb y (by rw [hsc]; simp)).2
    · intro z hz
      exact (hb z (by rw [hsc]; simp [hz])).2

theorem suggestionScore_le (p n : String) :
    suggestionScore p n ≤ 7/2 := by
  unfold suggestionScore
  simp only []
  have hr := pyRatio_le_one p (pyLower n)
  have hr0 := pyRatio_nonneg p (pyLower n)
  have h5 : pyRatio p (pyLower n) * ((5 : ℚ)/10) ≤ 5/10 := by nlinarith
  have h1 : (if pyStartsWith (pyLower n) p then (8 : ℚ)/10 else 0) ≤ 8/10 := by
    split <;> norm_num
  have h2 : (if substr p (pyLower n) then (6 : ℚ)/10 else 0) ≤ 6/10 := by
    split <;> norm_num
  have h3 : (if pySplit n ≠ [] ∧ pyStartsWith (pyLower ((pySplit n).headD "")) p
      then (9 : ℚ)/10 else 0) ≤ 9/10 := by
    split <;> norm_num
  have h4 : (if 1 < (pySplit n).length ∧
      pyStartsWith (pyLower ((pySplit n).getLastD "")) p
      then (7 : ℚ)/10 else 0) ≤ 7/10 := by
    split <;> norm_num
  linarith

/-! ### Claim theorems -/

/-- C1 (counterexample): the claim "resolving m's full name always returns
m's id" fails: in `[{u1, "Dinesh"}, {u2, "Dinesh Kumar"}]`, u2's first-token
key overwrites u1's full-name key `"dinesh"`, so resolving u1's full name
returns u2's id. -/
theorem C1_counterexample :
    (⟨"u1", "Dinesh"⟩ : User) ∈ [(⟨"u1", "Dinesh"⟩ : User), ⟨"u2", "Dinesh Kumar"⟩]
    ∧ pyStrip "Dinesh" ≠ ""
    ∧ get_user_id_by_name [⟨"u1", "Dinesh"⟩, ⟨"u2", "Dinesh Kumar"⟩]
        (build_name_mapping [⟨"u1", "Dinesh"⟩, ⟨"u2", "Dinesh Kumar"⟩])
        "Dinesh" = some "u2"
    ∧ "u2" ≠ "u1" := by decide

/-- C1 (amended): for every member m with a non-empty trimmed name such that
no **later** member registers m's normalised full name as one of its lookup
keys, resolving m's full name returns m's id through the exact path. -/
theorem C1_full_name_resolves (l1 l2 : List User) (m : User)
    (hname : pyStrip m.name ≠ "")
    (hafter : ∀ v ∈ l2, pyLower (pyStrip m.name) ∉ userKeys v) :
    get_user_id_by_name (l1 ++ m :: l2)
      (build_name_mapping (l1 ++ m :: l2)) m.name = some m.id := by
  have hql : m.name ≠ "" := by
    intro h
    rw [h] at hname
    exact hname rfl
  unfold get_user_id_by_name find_user_by_name
  rw [if_neg (by simp [hql])]
  have hkey : lookupKey (build_name_mapping (l1 ++ m :: l2))
      (pyLower (pyStrip m.name)) = some m.id := by
    rw [lookup_build]
    have hrev : (l1 ++ m :: l2).reverse = l2.reverse ++ m :: l1.reverse := by
      simp
    rw [hrev, find?_append_first]
    have hnone : l2.reverse.find?
        (fun u => (userKeys u).contains (pyLower (pyStrip m.name))) = none := by
      rw [List.find?_eq_none]
      intro v hv
      have hv2 : v ∈ l2 := List.mem_reverse.1 hv
      simp [hafter v hv2]
    rw [hnone]
    have hmem : pyLower (pyStrip m.name) ∈ userKeys m := by
      unfold userKeys
      rw [if_neg hname]
      exact List.mem_append.2 (Or.inl (by simp))
    rw [List.find?_cons_of_pos _ (by simpa using hmem)]
  rw [hkey]
  dsimp only
  have hfs : ((l1 ++ m :: l2).find? (fun x => x.id == m.id)).isSome := by
    apply List.find?_isSome.2
    exact ⟨m, by simp, by simp⟩
  obtain ⟨u, hu⟩ := Option.isSome_iff_exists.1 hfs
  have hpu : u.id = m.id := by
    have := List.find?_some hu
    simpa using this
  rw [hu]
  dsimp only
  rw [hpu]

/-- Witness for C1 (amended) at a concrete directory. -/
theorem C1_full_name_resolves_witness :
    pyStrip "Dinesh Kumar" ≠ "" ∧
    get_user_id_by_name [(⟨"u1", "Dinesh Kumar"⟩ : User)]
      (build_name_mapping [(⟨"u1", "Dinesh Kumar"⟩ : User)]) "Dinesh Kumar" =
      some "u1" :=
  ⟨by decide,
    C1_full_name_resolves [] [] ⟨"u1", "Dinesh Kumar"⟩ (by decide) (by decide)⟩

/-- C4: index building is last-writer-wins: if a key is registered by an
earlier member u and by a later member v, and nobody after v registers it,
the built index maps the key to v's id; in particular `"Kumar"` resolves to
`"u2"` on the two-member example directory. -/
theorem C4_last_writer_wins :
    (∀ (l l3 : List User) (u v : User) (k : String),
      u ∈ l → k ∈ userKeys u → k ∈ userKeys v →
      (∀ w ∈ l3, k ∉ userKeys w) →
      lookupKey (build_name_mapping (l ++ v :: l3)) k = some v.id)
    ∧ get_user_id_by_name
        [⟨"u1", "Dinesh Kumar"⟩, ⟨"u2", "Divya Kumar"⟩]
        (build_name_mapping [⟨"u1", "Dinesh Kumar"⟩, ⟨"u2", "Divya Kumar"⟩])
        "Kumar" = some "u2" := by
  constructor
  · intro l l3 u v k hu hku hkv hafter
    rw [lookup_build]
    have hrev : (l ++ v :: l3).reverse = l3.reverse ++ v :: l.reverse := by
      simp
    rw [hrev, find?_append_first]
    have hnone : l3.reverse.find?
        (fun w => (userKeys w).contains k) = none := by
      rw [List.find?_eq_none]
      intro w hw
      simp [hafter w (List.mem_reverse.1 hw)]
    rw [hnone]
    rw [List.find?_cons_of_pos _ (by simpa using hkv)]
  · decide

/-- Witness for C4's universal part: the shared last-token key `"kumar"`. -/
theorem C4_last_writer_wins_witness :
    lookupKey (build_name_mapping
      [(⟨"u1", "Dinesh Kumar"⟩ : User), ⟨"u2", "Divya Kumar"⟩]) "kumar" =
      some "u2" :=
  C4_last_writer_wins.1 [⟨"u1", "Dinesh Kumar"⟩] [] ⟨"u1", "Dinesh Kumar"⟩
    ⟨"u2", "Divya Kumar"⟩ "kumar" (by decide) (by decide) (by decide)
    (by decide)

/-- C6 (amended): on an exact-index hit the endpoint reports the member, but
its confidence is the `SequenceMatcher` ratio of the lower-cased query
against the matched member's lower-cased name — similarity **is** computed
on this path, and it equals 1.0 only when those strings coincide. -/
theorem C6_exact_hit_confidence (users : List User) (q uid : String) (u : User)
    (hq : q ≠ "") (hu : users ≠ [])
    (hhit : lookupKey (build_name_mapping users) (pyLower (pyStrip q)) = some uid)
    (hfind : users.find? (fun x => x.id == uid) = some u) :
    match_user_name users (build_name_mapping users) q =
      ⟨true, some u, some (pyRatio (pyLower q) (pyLower u.name)), q⟩ := by
  unfold match_user_name find_user_by_name
  rw [if_neg (by simp [hq, hu]), hhit]
  dsimp only
  rw [hfind]

/-- Witness for C6 (amended) at the `"Dinesh"` exact hit. -/
theorem C6_exact_hit_confidence_witness :
    match_user_name [(⟨"u1", "Dinesh Kumar"⟩ : User)]
      (build_name_mapping [(⟨"u1", "Dinesh Kumar"⟩ : User)]) "Dinesh" =
      ⟨true, some ⟨"u1", "Dinesh Kumar"⟩,
        some (pyRatio (pyLower "Dinesh") (pyLower "Dinesh Kumar")), "Dinesh"⟩ :=
  C6_exact_hit_confidence [⟨"u1", "Dinesh Kumar"⟩] "Dinesh" "u1"
    ⟨"u1", "Dinesh Kumar"⟩ (by decide) (by decide) (by decide) (by decide)

/-- C6 (counterexample): `"Dinesh"` is an exact-index hit, yet the reported
confidence is 2/3, not 1.0. -/
theorem C6_counterexample :
    (lookupKey (build_name_mapping [(⟨"u1", "Dinesh Kumar"⟩ : User)])
      (pyLower (pyStrip "Dinesh"))).isSome = true
    ∧ (match_user_name [(⟨"u1", "Dinesh Kumar"⟩ : User)]
        (build_name_mapping [(⟨"u1", "Dinesh Kumar"⟩ : User)])
        "Dinesh").confidence_score = some ((2 : ℚ)/3)
    ∧ (2 : ℚ)/3 ≠ 1 := by
  refine ⟨by decide, ?_, by norm_num⟩
  unfold match_user_name
  rw [show find_user_by_name [(⟨"u1", "Dinesh Kumar"⟩ : User)]
      (build_name_mapping [(⟨"u1", "Dinesh Kumar"⟩ : User)]) "Dinesh" =
      some ⟨"u1", "Dinesh Kumar"⟩ from by decide]
  dsimp only
  congr 1
  rw [show pyLower "Dinesh" = "dinesh" from by decide,
    show pyLower "Dinesh Kumar" = "dinesh kumar" from by decide]
  unfold pyRatio
  rw [if_neg (by decide),
    show smMatches "dinesh".data "dinesh kumar".data = 6 from by decide,
    show "dinesh".data.length = 6 from rfl,
    show "dinesh kumar".data.length = 12 from rfl]
  norm_num

/-- C7 (counterexample): a remote sequence delivering the same id on two
pages yields that id **twice** — `fetch_users_in_batches` does not
deduplicate. -/
theorem C7_counterexample :
    fetch_users_in_batches
      [[⟨"user", "person", "u1", "Alice"⟩], [⟨"user", "person", "u1", "Alice"⟩]]
      = [⟨"u1", "Alice", "person"⟩, ⟨"u1", "Alice", "person"⟩]
    ∧ ¬ ((fetch_users_in_batches
        [[⟨"user", "person", "u1", "Alice"⟩],
         [⟨"user", "person", "u1", "Alice"⟩]]).map (fun u => u.id)).Nodup := by
  decide

/-- C7 (amended): the paginated load concatenates the person-filtered pages
in order, preserving duplicates; duplicate ids are instead rejected
downstream by `verify_extraction`, which succeeds exactly on a non-empty
extraction with pairwise-distinct ids. -/
theorem C7_no_dedup (pages : List (List RemoteUser)) (users : List FetchedUser) :
    fetch_users_in_batches pages = (pages.map pagePersons).flatten
    ∧ (verify_extraction users = true ↔
        users ≠ [] ∧ (users.map (fun u => u.id)).Nodup) := by
  constructor
  · suffices h : ∀ (ps : List (List RemoteUser)) (acc : List FetchedUser),
        ps.foldl (fun all_users page => all_users ++ pagePersons page) acc =
          acc ++ (ps.map pagePersons).flatten by
      have := h pages []
      simpa [fetch_users_in_batches] using this
    intro ps
    induction ps with
    | nil => intro acc; simp
    | cons p ps ih =>
      intro acc
      simp only [List.foldl_cons, List.map_cons, List.flatten_cons, ih,
        List.append_assoc]
  · by_cases he : users = []
    · subst he
      decide
    · unfold verify_extraction
      rw [if_neg he]
      by_cases hd : ((users.map (fun u => u.id)).length ≠
          (users.map (fun u => u.id)).dedup.length)
      · rw [if_pos hd]
        constructor
        · intro hfalse
          simp at hfalse
        · rintro ⟨-, hnd⟩
          exfalso
          exact hd (by rw [List.dedup_eq_self.2 hnd])
      · rw [if_neg hd]
        push_neg at hd
        simp only [true_iff]
        refine ⟨he, ?_⟩
        have hsub := List.dedup_sublist (users.map (fun u => u.id))
        have heq := hsub.eq_of_length hd.symm
        exact List.dedup_eq_self.1 heq

/-- C8 (counterexample): for the single-token name `"Dinesh"` the initials
key `"d"` is **not** registered (the builder guards initials behind
`len(parts) >= 2`), contradicting the "at least one token" claim. -/
theorem C8_counterexample :
    1 ≤ (pySplit (pyStrip "Dinesh")).length
    ∧ initialsOf (pySplit (pyStrip "Dinesh")) = "d"
    ∧ lookupKey (build_name_mapping [(⟨"u1", "Dinesh"⟩ : User)]) "d" = none := by
  decide

/-- C8 (amended): for every member whose trimmed name has at least **two**
tokens, the builder registers the initials key for that member: it is among
the member's registered keys, it maps to the member's id in a
single-member index, and it is present in any index built from a directory
containing the member. -/
theorem C8_initials_registered (u : User)
    (h2 : 2 ≤ (pySplit (pyStrip u.name)).length) :
    initialsOf (pySplit (pyStrip u.name)) ∈ userKeys u
    ∧ lookupKey (build_name_mapping [u])
        (initialsOf (pySplit (pyStrip u.name))) = some u.id
    ∧ ∀ (users : List User), u ∈ users →
        (lookupKey (build_name_mapping users)
          (initialsOf (pySplit (pyStrip u.name)))).isSome := by
  have hname : pyStrip u.name ≠ "" := by
    intro h
    rw [h] at h2
    simp [pySplit, pySplitAux] at h2
  have hmem : initialsOf (pySplit (pyStrip u.name)) ∈ userKeys u := by
    unfold userKeys
    rw [if_neg hname]
    rcases hp : pySplit (pyStrip u.name) with _ | ⟨p, rest⟩
    · rw [hp] at h2; simp at h2
    · apply List.mem_append.2
      right
      dsimp only
      apply List.mem_append.2
      right
      rw [if_pos (by rw [hp] at h2; exact h2)]
      simp [hp]
  refine ⟨hmem, ?_, ?_⟩
  · show lookupKey ([u].foldl buildStep []) _ = some u.id
    simp only [List.foldl_cons, List.foldl_nil]
    rw [lookup_buildStep]
    rw [if_pos (by simpa using hmem)]
  · intro users huu
    rw [lookup_build]
    have hex : ∃ x, x ∈ users.reverse ∧
        ((userKeys x).contains (initialsOf (pySplit (pyStrip u.name)))) := by
      exact ⟨u, List.mem_reverse.2 huu, by simpa using hmem⟩
    have hsome := List.find?_isSome.2 hex
    obtain ⟨v, hv⟩ := Option.isSome_iff_exists.1 hsome
    rw [hv]
    rfl

/-- Witness for C8 (amended) on `"Dinesh Kumar"` (initials key `"dk"`). -/
theorem C8_initials_registered_witness :
    initialsOf (pySplit (pyStrip "Dinesh Kumar")) ∈
      userKeys (⟨"u1", "Dinesh Kumar"⟩ : User)
    ∧ lookupKey (build_name_mapping [(⟨"u1", "Dinesh Kumar"⟩ : User)])
        (initialsOf (pySplit (pyStrip "Dinesh Kumar"))) = some "u1"
    ∧ (lookupKey (build_name_mapping
        [(⟨"u9", "Xavier"⟩ : User), ⟨"u1", "Dinesh Kumar"⟩])
        (initialsOf (pySplit (pyStrip "Dinesh Kumar")))).isSome := by
  have h := C8_initials_registered ⟨"u1", "Dinesh Kumar"⟩ (by decide)
  exact ⟨h.1, h.2.1, h.2.2 [⟨"u9", "Xavier"⟩, ⟨"u1", "Dinesh Kumar"⟩] (by decide)⟩

/-- Skipping one element that fails the predicate in the middle of a list
does not change `find?`. -/
theorem find?_middle_skip {α : Type} (p : α → Bool) (l1 l2 : List α) (w : α)
    (hw : ¬ p w) : (l1 ++ w :: l2).find? p = (l1 ++ l2).find? p := by
  rw [find?_append_first, find?_append_first,
    List.find?_cons_of_neg _ hw]

/-- C3: on every exact-index miss, the fuzzy matcher returns the
highest-scoring member iff its best heuristic score reaches 0.6 (else
`none`), ties resolving to the member evaluated first in directory order
(`find?` of the first argmax); and when the threshold is met such a first
argmax exists and carries the maximal score. -/
theorem C3_fuzzy_acceptance (users : List User) (q : String)
    (hq : q ≠ "") (hu : users ≠ [])
    (hmiss : lookupKey (build_name_mapping users) (pyLower (pyStrip q)) = none) :
    (find_user_by_name users (build_name_mapping users) q =
      if (6 : ℚ)/10 ≤ eligMax (pyLower (pyStrip q)) users then
        users.find? (fuzzyArgPred (pyLower (pyStrip q))
          (eligMax (pyLower (pyStrip q)) users))
      else none)
    ∧ ((6 : ℚ)/10 ≤ eligMax (pyLower (pyStrip q)) users →
        ∃ u, users.find? (fuzzyArgPred (pyLower (pyStrip q))
            (eligMax (pyLower (pyStrip q)) users)) = some u
          ∧ pyStrip u.name ≠ ""
          ∧ fuzzyScoreOf (pyLower (pyStrip q)) u =
              eligMax (pyLower (pyStrip q)) users) := by
  refine ⟨find_user_fuzzy users q hq hu hmiss, ?_⟩
  intro hM
  obtain ⟨u0, hmem, hne, heq⟩ :=
    eligMax_attained (pyLower (pyStrip q)) users (by linarith)
  have hsome : (users.find? (fuzzyArgPred (pyLower (pyStrip q))
      (eligMax (pyLower (pyStrip q)) users))).isSome :=
    List.find?_isSome.2 ⟨u0, hmem, by simp [fuzzyArgPred, hne, heq]⟩
  obtain ⟨v, hv⟩ := Option.isSome_iff_exists.1 hsome
  have hp := List.find?_some hv
  simp only [fuzzyArgPred, decide_eq_true_eq] at hp
  exact ⟨v, hv, hp.1, hp.2⟩

/-- Witness for C3 at the misspelled query `"Dines"`. -/
theorem C3_fuzzy_acceptance_witness :
    find_user_by_name [(⟨"u1", "Dinesh Kumar"⟩ : User), ⟨"u2", "Divya Kumar"⟩]
      (build_name_mapping
        [(⟨"u1", "Dinesh Kumar"⟩ : User), ⟨"u2", "Divya Kumar"⟩]) "Dines" =
      if (6 : ℚ)/10 ≤ eligMax (pyLower (pyStrip "Dines"))
          [(⟨"u1", "Dinesh Kumar"⟩ : User), ⟨"u2", "Divya Kumar"⟩] then
        ([(⟨"u1", "Dinesh Kumar"⟩ : User), ⟨"u2", "Divya Kumar"⟩]).find?
          (fuzzyArgPred (pyLower (pyStrip "Dines"))
            (eligMax (pyLower (pyStrip "Dines"))
              [(⟨"u1", "Dinesh Kumar"⟩ : User), ⟨"u2", "Divya Kumar"⟩]))
      else none :=
  (C3_fuzzy_acceptance [⟨"u1", "Dinesh Kumar"⟩, ⟨"u2", "Divya Kumar"⟩]
    "Dines" (by decide) (by decide) (by decide)).1

/-- C5: suggestions keep only members with additive score `> 0.3` (each
record carries its computed score), come sorted descending by score with
equal scores in original directory order (stability stated as: filtering
any fixed score commutes with the sort), and are truncated to `limit`
(`limit = 0` yields `[]`, never an error). -/
theorem C5_suggestions_contract (users : List User) (p : String) (limit : Nat) :
    (get_name_suggestions users p limit).length ≤ limit
    ∧ (get_name_suggestions users p limit).Pairwise
        (fun a b => b.score ≤ a.score)
    ∧ (∀ s ∈ get_name_suggestions users p limit,
        s.score = suggestionScore (pyLower (pyStrip p)) (pyStrip s.user.name)
        ∧ (3 : ℚ)/10 < s.score)
    ∧ (∀ c : ℚ,
        (sortDescStable (scoredSuggestions users (pyLower (pyStrip p)))).filter
          (fun s => decide (s.score = c)) =
        (scoredSuggestions users (pyLower (pyStrip p))).filter
          (fun s => decide (s.score = c)))
    ∧ get_name_suggestions users p 0 = [] := by
  refine ⟨?_, ?_, ?_, fun c => sortDescStable_filter c _, ?_⟩
  · unfold get_name_suggestions
    split
    · simp
    · rw [List.length_take]
      exact min_le_left _ _
  · unfold get_name_suggestions
    split
    · exact List.Pairwise.nil
    · exact (sortDescStable_pairwise _).sublist (List.take_sublist _ _)
  · intro s hs
    unfold get_name_suggestions at hs
    split at hs
    · simp at hs
    · have h1 : s ∈ sortDescStable
          (scoredSuggestions users (pyLower (pyStrip p))) :=
        (List.take_sublist _ _).subset hs
      have h2 := sortDescStable_mem s _ h1
      obtain ⟨-, -, -, hsc, hgt⟩ := scoredSuggestions_mem users _ s h2
      exact ⟨hsc, hgt⟩
  · unfold get_name_suggestions
    split
    · rfl
    · exact List.take_zero _

/-- C9: a member with an empty or whitespace-only name is silently excluded:
index building ignores it, matching is unchanged by its presence (given the
data model's unique ids), and suggestion ranking is unchanged; all three
operations remain total. -/
theorem C9_empty_name_excluded (l1 l2 : List User) (w : User)
    (hw : pyStrip w.name = "") :
    build_name_mapping (l1 ++ w :: l2) = build_name_mapping (l1 ++ l2)
    ∧ (∀ (q : String), ((l1 ++ w :: l2).map (fun u => u.id)).Nodup →
        find_user_by_name (l1 ++ w :: l2)
          (build_name_mapping (l1 ++ w :: l2)) q
          = find_user_by_name (l1 ++ l2) (build_name_mapping (l1 ++ l2)) q)
    ∧ (∀ (p : String) (limit : Nat),
        get_name_suggestions (l1 ++ w :: l2) p limit =
          get_name_suggestions (l1 ++ l2) p limit) := by
  have hkw : userKeys w = [] := by
    unfold userKeys
    simp [hw]
  have hbw : ∀ m, buildStep m w = m := by
    intro m
    unfold buildStep
    rw [hkw]
    rfl
  have hbuild : build_name_mapping (l1 ++ w :: l2) =
      build_name_mapping (l1 ++ l2) := by
    unfold build_name_mapping
    rw [List.foldl_append, List.foldl_append, List.foldl_cons, hbw]
  have hsw : ∀ (q' : String) (acc : Option User × ℚ),
      fuzzyStep q' acc w = acc := by
    intro q' acc
    unfold fuzzyStep
    rw [if_pos hw]
  have hfold : ∀ (q' : String) (init : Option User × ℚ),
      (l1 ++ w :: l2).foldl (fuzzyStep q') init =
      (l1 ++ l2).foldl (fuzzyStep q') init := by
    intro q' init
    rw [List.foldl_append, List.foldl_append, List.foldl_cons, hsw]
  refine ⟨hbuild, ?_, ?_⟩
  · intro q hnd
    by_cases hq : q = ""
    · subst hq
      unfold find_user_by_name
      rw [if_pos (Or.inl rfl), if_pos (Or.inl rfl)]
    · by_cases hl : l1 ++ l2 = []
      · obtain ⟨h1, h2⟩ := List.append_eq_nil.1 hl
        subst h1
        subst h2
        unfold find_user_by_name
        rw [if_neg (by simp [hq]),
          if_pos (show q = "" ∨ ([] : List User) ++ [] = [] by simp)]
        have hb0 : build_name_mapping ([] ++ w :: []) = [] := by
          rw [hbuild]
          rfl
        rw [hb0]
        rw [show lookupKey [] (pyLower (pyStrip q)) = none from rfl]
        dsimp only
        simp only [List.nil_append, List.foldl_cons, List.foldl_nil, hsw]
      · unfold find_user_by_name
        rw [if_neg (by simp [hq]), if_neg (by simp [hq, hl]), hbuild]
        rcases hlk : lookupKey (build_name_mapping (l1 ++ l2))
          (pyLower (pyStrip q)) with _ | uid
        · dsimp only
          rw [hfold]
        · dsimp only
          have hlb := lookup_build (l1 ++ l2) (pyLower (pyStrip q))
          rw [hlk] at hlb
          rcases hfr : (l1 ++ l2).reverse.find?
            (fun u => (userKeys u).contains (pyLower (pyStrip q)))
            with _ | r
          · rw [hfr] at hlb
            simp at hlb
          · rw [hfr] at hlb
            have hid : uid = r.id := by simpa using hlb
            have hrmem : r ∈ l1 ++ l2 :=
              List.mem_reverse.1 (List.mem_of_find?_eq_some hfr)
            have hwid : w.id ≠ r.id := by
              intro hwr
              have hnd2 : ((l1.map (fun u => u.id)) ++ w.id ::
                  (l2.map (fun u => u.id))).Nodup := by
                simpa using hnd
              have hnd3 := List.nodup_middle.1 hnd2
              rw [List.nodup_cons] at hnd3
              apply hnd3.1
              rw [hwr, ← List.map_append]
              exact List.mem_map.2 ⟨r, hrmem, rfl⟩
            apply find?_middle_skip
            simp [hid]
            exact hwid
  · intro p limit
    by_cases hp : p = ""
    · subst hp
      unfold get_name_suggestions
      rw [if_pos (Or.inl rfl), if_pos (Or.inl rfl)]
    · have hsc : scoredSuggestions (l1 ++ w :: l2) (pyLower (pyStrip p)) =
          scoredSuggestions (l1 ++ l2) (pyLower (pyStrip p)) := by
        unfold scoredSuggestions
        rw [List.filterMap_append, List.filterMap_append,
          List.filterMap_cons]
        have hfw : (if pyStrip w.name = "" then none
            else
              if (3 : ℚ)/10 < suggestionScore (pyLower (pyStrip p))
                  (pyStrip w.name) then
                some (Suggestion.mk w
                  (suggestionScore (pyLower (pyStrip p)) (pyStrip w.name))
                  (pyStrip w.name))
              else none) = (none : Option Suggestion) := by
          rw [if_pos hw]
        rw [hfw]
      unfold get_name_suggestions
      by_cases hl : l1 ++ l2 = []
      · rw [if_neg (by simp [hp]), if_pos (Or.inr hl), hsc, hl]
        simp [scoredSuggestions, sortDescStable]
      · rw [if_neg (by simp [hp]), if_neg (by simp [hp, hl]), hsc]

/-- Witness for C9: the whitespace-named member `{u9, "  "}` changes
nothing. -/
theorem C9_empty_name_excluded_witness :
    build_name_mapping [(⟨"u1", "Dinesh Kumar"⟩ : User), ⟨"u9", "  "⟩] =
      build_name_mapping [(⟨"u1", "Dinesh Kumar"⟩ : User)]
    ∧ find_user_by_name [(⟨"u1", "Dinesh Kumar"⟩ : User), ⟨"u9", "  "⟩]
        (build_name_mapping [(⟨"u1", "Dinesh Kumar"⟩ : User), ⟨"u9", "  "⟩])
        "dinesh"
        = find_user_by_name [(⟨"u1", "Dinesh Kumar"⟩ : User)]
            (build_name_mapping [(⟨"u1", "Dinesh Kumar"⟩ : User)]) "dinesh"
    ∧ get_name_suggestions [(⟨"u1", "Dinesh Kumar"⟩ : User), ⟨"u9", "  "⟩]
        "Di" 5
        = get_name_suggestions [(⟨"u1", "Dinesh Kumar"⟩ : User)] "Di" 5 := by
  have h := C9_empty_name_excluded [⟨"u1", "Dinesh Kumar"⟩] [] ⟨"u9", "  "⟩
    (by decide)
  exact ⟨h.1, h.2.1 "dinesh" (by decide), h.2.2 "Di" 5⟩

/-! ### Concrete evaluations of the similarity ratio and the scores

`ℚ` arithmetic does not reduce in the kernel, so concrete score values are
established by rewriting `smMatches` (a `Nat` computation) and finishing
with `norm_num`. -/

theorem pyRatio_empty_dk : pyRatio "" "dinesh kumar" = 0 := by
  unfold pyRatio
  rw [if_neg (by decide),
    show smMatches "".data "dinesh kumar".data = 0 from by decide,
    show "".data.length = 0 from rfl,
    show "dinesh kumar".data.length = 12 from rfl]
  norm_num

theorem pyRatio_dinesh_dinesh : pyRatio "dinesh" "dinesh" = 1 := by
  unfold pyRatio
  rw [if_neg (by decide),
    show smMatches "dinesh".data "dinesh".data = 6 from by decide,
    show "dinesh".data.length = 6 from rfl]
  norm_num

theorem fuzzyScores_ws_eval :
    fuzzyScores "" "Dinesh Kumar" = [pyRatio "" "dinesh kumar", (8 : ℚ)/10] := by
  simp only [fuzzyScores]
  rw [show pyLower "Dinesh Kumar" = "dinesh kumar" from by decide,
    show pySplit "Dinesh Kumar" = ["Dinesh", "Kumar"] from by decide]
  rw [if_pos (by decide :
      (substr "" "dinesh kumar" || substr "dinesh kumar" "") = true)]
  rw [if_neg (by decide : ¬((["Dinesh", "Kumar"] : List String) ≠ [] ∧
      "" = pyLower ((["Dinesh", "Kumar"] : List String).headD "")))]
  rw [if_neg (by decide : ¬(1 < (["Dinesh", "Kumar"] : List String).length ∧
      "" = pyLower ((["Dinesh", "Kumar"] : List String).getLastD "")))]
  rw [if_neg (by decide : ¬("" = initialsOf ["Dinesh", "Kumar"]))]
  rw [show (((["Dinesh", "Kumar"] : List String).drop 1).dropLast) =
      ([] : List String) from rfl]
  simp

theorem fuzzyScoreOf_ws :
    fuzzyScoreOf "" (⟨"u1", "Dinesh Kumar"⟩ : User) = (8 : ℚ)/10 := by
  show listMax (fuzzyScores "" (pyStrip "Dinesh Kumar")) = (8 : ℚ)/10
  rw [show pyStrip "Dinesh Kumar" = "Dinesh Kumar" from by decide,
    fuzzyScores_ws_eval, pyRatio_empty_dk]
  show max (0 : ℚ) ((8 : ℚ)/10) = (8 : ℚ)/10
  exact max_eq_right (by norm_num)

/-- C2 (counterexample): a whitespace-only query is **not** short-circuited:
it normalises to the empty string, the containment bonus fires for every
non-empty name (score 0.8 ≥ 0.6), and the first member is returned. -/
theorem C2_counterexample :
    pyStrip " " = ""
    ∧ find_user_by_name [(⟨"u1", "Dinesh Kumar"⟩ : User)]
        (build_name_mapping [(⟨"u1", "Dinesh Kumar"⟩ : User)]) " " =
        some ⟨"u1", "Dinesh Kumar"⟩ := by
  refine ⟨by decide, ?_⟩
  unfold find_user_by_name
  rw [if_neg (by decide)]
  rw [show pyLower (pyStrip " ") = "" from by decide]
  rw [show lookupKey
      (build_name_mapping [(⟨"u1", "Dinesh Kumar"⟩ : User)]) "" = none
    from by decide]
  dsimp only
  simp only [List.foldl_cons, List.foldl_nil]
  have hstep : fuzzyStep "" ((none : Option User), (0 : ℚ))
      (⟨"u1", "Dinesh Kumar"⟩ : User) =
      (some (⟨"u1", "Dinesh Kumar"⟩ : User), (8 : ℚ)/10) := by
    unfold fuzzyStep
    rw [if_neg (by decide), fuzzyScoreOf_ws]
    rw [if_pos (by norm_num : (1 : ℚ)/2 ≤ 8/10)]
    dsimp only
    rw [if_pos (by norm_num : (0 : ℚ) < 8/10)]
  rw [hstep]
  dsimp only
  rw [if_pos (by norm_num : (6 : ℚ)/10 ≤ 8/10)]

/-- C2 (amended): the **empty** query short-circuits before any scoring and
never yields a member (whitespace-only queries do not short-circuit; see
the counterexample). -/
theorem C2_empty_query_short_circuit (users : List User)
    (mapping : NameMapping) :
    find_user_by_name users mapping "" = none
    ∧ get_user_id_by_name users mapping "" = none := by
  constructor
  · unfold find_user_by_name
    rw [if_pos (Or.inl rfl)]
  · unfold get_user_id_by_name find_user_by_name
    rw [if_pos (Or.inl rfl)]

theorem suggestionScore_dinesh :
    suggestionScore "dinesh" "Dinesh" = (14 : ℚ)/5 := by
  simp only [suggestionScore]
  rw [show ((pySplit "Dinesh").headD "") = "Dinesh" from by decide,
    show pySplit "Dinesh" = ["Dinesh"] from by decide,
    show pyLower "Dinesh" = "dinesh" from by decide]
  rw [if_pos (by decide : pyStartsWith "dinesh" "dinesh" = true)]
  rw [if_pos (by decide : substr "dinesh" "dinesh" = true)]
  rw [if_pos (by decide : (["Dinesh"] : List String) ≠ [] ∧
      pyStartsWith "dinesh" "dinesh" = true)]
  rw [if_neg (by decide : ¬(1 < (["Dinesh"] : List String).length ∧
      pyStartsWith (pyLower ((["Dinesh"] : List String).getLastD ""))
        "dinesh" = true))]
  rw [pyRatio_dinesh_dinesh]
  norm_num

theorem suggestions_dinesh_eval :
    get_name_suggestions [(⟨"u1", "Dinesh"⟩ : User)] "dinesh" 5 =
      [⟨⟨"u1", "Dinesh"⟩, (14 : ℚ)/5, "Dinesh"⟩] := by
  unfold get_name_suggestions
  rw [if_neg (by decide)]
  rw [show pyLower (pyStrip "dinesh") = "dinesh" from by decide]
  have hsc : scoredSuggestions [(⟨"u1", "Dinesh"⟩ : User)] "dinesh" =
      [⟨⟨"u1", "Dinesh"⟩, (14 : ℚ)/5, "Dinesh"⟩] := by
    unfold scoredSuggestions
    simp only [List.filterMap_cons, List.filterMap_nil]
    rw [show pyStrip (⟨"u1", "Dinesh"⟩ : User).name = "Dinesh" from by decide]
    rw [if_neg (by decide : ¬("Dinesh" = "")), suggestionScore_dinesh]
    rw [if_pos (by norm_num : (3 : ℚ)/10 < 14/5)]
  rw [hsc]
  rfl

/-- C10: every returned suggestion's score lies in `(0.3, 3.5]`; suggestion
scores can exceed 1 (score 14/5 for query `"dinesh"` on member `"Dinesh"`),
while fuzzy heuristic scores always lie in `[0, 1]`. -/
theorem C10_score_ranges :
    (∀ (users : List User) (p : String) (limit : Nat),
      ∀ s ∈ get_name_suggestions users p limit,
        (3 : ℚ)/10 < s.score ∧ s.score ≤ 7/2)
    ∧ (∃ s ∈ get_name_suggestions [(⟨"u1", "Dinesh"⟩ : User)] "dinesh" 5,
        1 < s.score)
    ∧ (∀ (q : String) (u : User),
        0 ≤ fuzzyScoreOf q u ∧ fuzzyScoreOf q u ≤ 1) := by
  refine ⟨?_, ?_, fun q u => ⟨fuzzyScoreOf_nonneg q u, fuzzyScoreOf_le_one q u⟩⟩
  · intro users p limit s hs
    unfold get_name_suggestions at hs
    split at hs
    · simp at hs
    · have h1 := (List.take_sublist _ _).subset hs
      have h2 := sortDescStable_mem s _ h1
      obtain ⟨-, -, -, hsc, hgt⟩ := scoredSuggestions_mem users _ s h2
      refine ⟨hgt, ?_⟩
      rw [hsc]
      exact suggestionScore_le _ _
  · refine ⟨⟨⟨"u1", "Dinesh"⟩, (14 : ℚ)/5, "Dinesh"⟩, ?_, ?_⟩
    · rw [suggestions_dinesh_eval]
      simp
    · show (1 : ℚ) < 14/5
      norm_num

/-- Witness for C10's universal bound at the concrete suggestion above. -/
theorem C10_score_ranges_witness :
    (3 : ℚ)/10 < (14 : ℚ)/5 ∧ (14 : ℚ)/5 ≤ 7/2 := by
  have h := C10_score_ranges.1 [(⟨"u1", "Dinesh"⟩ : User)] "dinesh" 5
    ⟨⟨"u1", "Dinesh"⟩, (14 : ℚ)/5, "Dinesh"⟩
    (by rw [suggestions_dinesh_eval]; simp)
  exact h

/-- Witness for C5 at the concrete one-member directory. -/
theorem C5_suggestions_contract_witness :
    (get_name_suggestions [(⟨"u1", "Dinesh"⟩ : User)] "dinesh" 5).length ≤ 5
    ∧ ((⟨⟨"u1", "Dinesh"⟩, (14 : ℚ)/5, "Dinesh"⟩ : Suggestion).score =
        suggestionScore (pyLower (pyStrip "dinesh"))
          (pyStrip (⟨"u1", "Dinesh"⟩ : User).name)
        ∧ (3 : ℚ)/10 <
            (⟨⟨"u1", "Dinesh"⟩, (14 : ℚ)/5, "Dinesh"⟩ : Suggestion).score)
    ∧ get_name_suggestions [(⟨"u1", "Dinesh"⟩ : User)] "dinesh" 0 = [] := by
  refine ⟨(C5_suggestions_contract [(⟨"u1", "Dinesh"⟩ : User)] "dinesh" 5).1,
    ?_,
    (C5_suggestions_contract [(⟨"u1", "Dinesh"⟩ : User)] "dinesh" 0).2.2.2.2⟩
  exact (C5_suggestions_contract [(⟨"u1", "Dinesh"⟩ : User)] "dinesh" 5).2.2.1
    _ (by rw [suggestions_dinesh_eval]; simp)
